import Mathlib

set_option maxRecDepth 100000

/-! Verification of the pdftok PDF lexical scanner (src/lex.go).

Shallow embedding notes.  The Go input string is modelled as the list of its
bytes (`List Nat`); runes are modelled as `Int` with `-1` as the `eof`
sentinel, exactly as in the source.  `utf8.DecodeRuneInString` is modelled by
`utf8DecodeRune` below.  The producer/consumer channel of the Go code is
modelled by returning the emitted items as a list, and the state-function loop
of `run` is a fuel-indexed interpreter `runFrom`; exhausting the fuel is
reported as `halted = false` (the Go code has no fuel: a run that needs
unbounded fuel is a run that never reaches its terminal token).
Positions are byte offsets, as in the source. -/

/-- Token kinds, in the source's declaration order (src/lex.go `itemType`). -/
inductive itemType where
  | itemError
  | itemEOF
  | itemNumber
  | itemSpace
  | itemLeftDict
  | itemRightDict
  | itemLeftArray
  | itemRightArray
  | itemStreamBody
  | itemString
  | itemHexString
  | itemComment
  | itemName
  | itemWord
  | itemKeyword
  | itemObj
  | itemEndObj
  | itemStream
  | itemEndStream
  | itemTrailer
  | itemXref
  | itemStartXref
  | itemTrue
  | itemFalse
  | itemNull
deriving DecidableEq

/-- A token: kind, starting byte offset, raw value (bytes).  For error tokens
the value is the rendered error message, as in `errorf`. -/
structure item where
  typ : itemType
  pos : Nat
  val : List Nat
deriving DecidableEq

/-- Bytes of an ASCII Lean string literal (used for the fixed message texts and
keyword spellings appearing in the source; all of them are ASCII, where
`Char.toNat` coincides with Go's UTF-8 bytes). -/
def strBytes (s : String) : List Nat := s.data.map Char.toNat

/-- Go slice `xs[a:b]` (for the in-range uses the source makes of it). -/
def sliceB (xs : List Nat) (a b : Nat) : List Nat := (xs.drop a).take (b - a)

/-- Go `utf8.DecodeRuneInString` on a byte list: returns the decoded rune and
its width in bytes; an invalid, overlong, surrogate or truncated encoding
yields (RuneError = 0xFFFD, 1), as in the Go library. -/
def utf8DecodeRune (xs : List Nat) : Int × Nat :=
  match xs with
  | [] => (0xFFFD, 0)
  | b0 :: rest =>
    if b0 < 0x80 then (Int.ofNat b0, 1)
    else if b0 < 0xC2 ∨ 0xF4 < b0 then (0xFFFD, 1)
    else if b0 ≤ 0xDF then
      match rest with
      | b1 :: _ =>
        if 0x80 ≤ b1 ∧ b1 ≤ 0xBF then
          (Int.ofNat ((b0 - 0xC0) * 0x40 + (b1 - 0x80)), 2)
        else (0xFFFD, 1)
      | [] => (0xFFFD, 1)
    else if b0 ≤ 0xEF then
      match rest with
      | b1 :: b2 :: _ =>
        if (if b0 = 0xE0 then 0xA0 else 0x80) ≤ b1 ∧
           b1 ≤ (if b0 = 0xED then 0x9F else 0xBF) ∧
           0x80 ≤ b2 ∧ b2 ≤ 0xBF then
          (Int.ofNat ((b0 - 0xE0) * 0x1000 + (b1 - 0x80) * 0x40 + (b2 - 0x80)), 3)
        else (0xFFFD, 1)
      | _ => (0xFFFD, 1)
    else
      match rest with
      | b1 :: b2 :: b3 :: _ =>
        if (if b0 = 0xF0 then 0x90 else 0x80) ≤ b1 ∧
           b1 ≤ (if b0 = 0xF4 then 0x8F else 0xBF) ∧
           0x80 ≤ b2 ∧ b2 ≤ 0xBF ∧ 0x80 ≤ b3 ∧ b3 ≤ 0xBF then
          (Int.ofNat ((b0 - 0xF0) * 0x40000 + (b1 - 0x80) * 0x1000 +
                      (b2 - 0x80) * 0x40 + (b3 - 0x80)), 4)
        else (0xFFFD, 1)
      | _ => (0xFFFD, 1)

/-- Go `unicode.IsSpace`.  The Latin-1 fast path is modelled exactly
('\t','\n','\v','\f','\r',' ', U+0085, U+00A0); above Latin-1 the
White_Space code points are listed explicitly. -/
def goIsSpace (r : Int) : Bool :=
  decide (r = 9 ∨ r = 10 ∨ r = 11 ∨ r = 12 ∨ r = 13 ∨ r = 32 ∨ r = 0x85 ∨ r = 0xA0 ∨
          r = 0x1680 ∨ (0x2000 ≤ r ∧ r ≤ 0x200A) ∨ r = 0x2028 ∨ r = 0x2029 ∨
          r = 0x202F ∨ r = 0x205F ∨ r = 0x3000)

/-- Go `unicode.IsLetter`, modelled exactly on the Latin-1 fast path
(A-Z, a-z, U+00AA, U+00B5, U+00BA, U+00C0-U+00D6, U+00D8-U+00F6,
U+00F8-U+00FF).  Above Latin-1 Go consults the full Unicode tables, which no
theorem in this development depends on; such runes are treated as non-letters
here. -/
def goIsLetter (r : Int) : Bool :=
  decide ((65 ≤ r ∧ r ≤ 90) ∨ (97 ≤ r ∧ r ≤ 122) ∨ r = 0xAA ∨ r = 0xB5 ∨ r = 0xBA ∨
          (0xC0 ≤ r ∧ r ≤ 0xD6) ∨ (0xD8 ≤ r ∧ r ≤ 0xF6) ∨ (0xF8 ≤ r ∧ r ≤ 0xFF))

/-- Go `unicode.IsDigit`, modelled exactly on the Latin-1 fast path ('0'-'9');
the decimal-digit ranges above Latin-1 are not needed by any theorem here. -/
def goIsDigit (r : Int) : Bool := decide (48 ≤ r ∧ r ≤ 57)

/-- Source `isEndOfLine`: CR or LF. -/
def isEndOfLine (r : Int) : Bool := r == 13 || r == 10

/-- Source `isDelim`: the ten reserved delimiter characters. -/
def isDelim (r : Int) : Bool :=
  ([91, 93, 123, 125, 40, 41, 60, 62, 47, 37] : List Int).contains r

/-- Source `isAlphaNumeric`: underscore, letter, or digit. -/
def isAlphaNumeric (r : Int) : Bool := r == 95 || goIsLetter r || goIsDigit r

/-- Uppercase hex digit byte for a value below 16 (models `fmt`'s %X digits). -/
def hexDigitChar (n : Nat) : Nat := if n < 10 then 48 + n else 55 + n

/-- Hex digits of `n`, least significant first (fuel-bounded; 8 digits cover
every rune value). -/
def hexRevDigits : Nat → Nat → List Nat
  | 0, _ => []
  | _ + 1, 0 => []
  | f + 1, n => hexDigitChar (n % 16) :: hexRevDigits f (n / 16)

/-- Models `fmt`'s "%04X": at least four uppercase hex digits, zero padded. -/
def goUHex (n : Nat) : List Nat :=
  let ds := (hexRevDigits 8 n).reverse
  List.replicate (4 - ds.length) 48 ++ ds

/-- Go `unicode.IsPrint` on the Latin-1 fast path (0x20-0x7E, 0xA1-0xFF except
soft hyphen 0xAD); above Latin-1 is not needed by any theorem here. -/
def goIsPrint (r : Int) : Bool :=
  decide ((0x20 ≤ r ∧ r ≤ 0x7E) ∨ (0xA1 ≤ r ∧ r ≤ 0xFF ∧ r ≠ 0xAD))

/-- UTF-8 encoding of a code point (models how `fmt` renders a rune). -/
def utf8Encode (n : Nat) : List Nat :=
  if n < 0x80 then [n]
  else if n < 0x800 then [0xC0 + n / 0x40, 0x80 + n % 0x40]
  else if n < 0x10000 then
    [0xE0 + n / 0x1000, 0x80 + (n / 0x40) % 0x40, 0x80 + n % 0x40]
  else
    [0xF0 + n / 0x40000, 0x80 + (n / 0x1000) % 0x40, 0x80 + (n / 0x40) % 0x40,
     0x80 + n % 0x40]

/-- Models `fmt.Sprintf("%#U", r)` for the runes the source can pass to it
(non-negative): "U+" then at least four uppercase hex digits, then the quoted
rune when printable. -/
def formatU (r : Int) : List Nat :=
  strBytes "U+" ++ goUHex r.toNat ++
  (if goIsPrint r then strBytes " '" ++ utf8Encode r.toNat ++ strBytes "'" else [])

/-- Models `fmt`'s %q for one byte of the quoted text: printable ASCII is kept
(with quote and backslash escaped); tab, LF, CR get their short escapes; other
bytes are rendered as a hex escape.  This matches Go on the ASCII-only slices
the source quotes (the `bad number syntax` message). -/
def goQuoteByte (b : Nat) : List Nat :=
  if b = 34 then [92, 34]
  else if b = 92 then [92, 92]
  else if 0x20 ≤ b ∧ b < 0x7F then [b]
  else if b = 9 then [92, 116]
  else if b = 10 then [92, 110]
  else if b = 13 then [92, 114]
  else strBytes "\\x" ++ [hexDigitChar (b / 16 % 16), hexDigitChar (b % 16)]

/-- Models `fmt.Sprintf("%q", s)`: double quotes around the escaped text. -/
def goQuote (bs : List Nat) : List Nat := 34 :: (bs.map goQuoteByte).flatten ++ [34]

/-- Scanner state (src/lex.go `lexer`).  The `name`, `items` channel and
`lastPos` fields are omitted: `name` and `lastPos` feed only the diagnostic
`lineNumber`, and the channel is modelled by the item lists the state
functions return. -/
structure lexer where
  input : List Nat
  pos : Nat
  start : Nat
  width : Nat
  arrayDepth : Int
  dictDepth : Int
deriving DecidableEq

/-- Source `next`: return the next rune (eof = -1) and advance. -/
def lexer.next (l : lexer) : Int × lexer :=
  if l.input.length ≤ l.pos then (-1, { l with width := 0 })
  else
    let d := utf8DecodeRune (l.input.drop l.pos)
    (d.1, { l with width := d.2, pos := l.pos + d.2 })

/-- Source `backup`: step back one rune (by the width of the last `next`). -/
def lexer.backup (l : lexer) : lexer := { l with pos := l.pos - l.width }

/-- Source `peek`: `next` then `backup`. -/
def lexer.peek (l : lexer) : Int × lexer :=
  ((lexer.next l).1, lexer.backup (lexer.next l).2)

/-- Source `emit`: the item spans `input[start:pos]`, and `start` moves up. -/
def lexer.emit (l : lexer) (t : itemType) : item × lexer :=
  (⟨t, l.start, sliceB l.input l.start l.pos⟩, { l with start := l.pos })

/-- Source `accept`: consume the next rune when it is in the valid set. -/
def lexer.accept (l : lexer) (valid : List Int) : Bool × lexer :=
  if valid.contains (lexer.next l).1 then (true, (lexer.next l).2)
  else (false, lexer.backup (lexer.next l).2)

/-- Source `acceptRun` (fuel-bounded loop): consume a run of valid runes. -/
def acceptRun : Nat → List Int → lexer → Option lexer
  | 0, _, _ => none
  | f + 1, valid, l =>
    if valid.contains (lexer.next l).1 then acceptRun f valid (lexer.next l).2
    else some (lexer.backup (lexer.next l).2)

/-- Tags for the state functions of the scanner. -/
inductive stateTag where
  | SDefault
  | SSpace
  | SName
  | SNumber
  | SStringObj
  | SHexObj
  | SComment
  | SWord
  | SStream
  | SLeftDict
  | SRightDict
deriving DecidableEq

/-- Result of one state function: emitted items, new state, next state tag
(`none` models the Go `nil` state, i.e. scan termination). -/
abbrev StepRes := List item × lexer × Option stateTag

/-- Source `errorf`: one error item holding the message, then terminate. -/
def errorf (l : lexer) (msg : List Nat) : StepRes :=
  ([⟨.itemError, l.start, msg⟩], l, none)

/-- Body of the `r == eof` case of `lexDefault`.  It is split out because the
stray-`>` case of the switch falls through into it (Go `fallthrough`). -/
def lexAtEOF (l : lexer) : StepRes :=
  if l.arrayDepth > 0 then errorf l (strBytes "unterminated array")
  else if l.dictDepth > 0 then errorf l (strBytes "unterminated dict")
  else
    let e := lexer.emit l .itemEOF
    ([e.1], e.2, none)

/-- Source `lexDefault`: the dispatch state.  Go's switch binds `r := l.next()`
once; here the call is written inline (the lexer is pure, so the value is the
same at every occurrence). -/
def lexDefault (l : lexer) : StepRes :=
  if goIsSpace (lexer.next l).1 then ([], (lexer.next l).2, some .SSpace)
  else if (lexer.next l).1 == 47 then ([], (lexer.next l).2, some .SName)
  else if (lexer.next l).1 == 43 || (lexer.next l).1 == 45 || (lexer.next l).1 == 46 ||
          (decide (48 ≤ (lexer.next l).1) && decide ((lexer.next l).1 ≤ 57)) then
    ([], lexer.backup (lexer.next l).2, some .SNumber)
  else if isAlphaNumeric (lexer.next l).1 then ([], (lexer.next l).2, some .SWord)
  else if (lexer.next l).1 == 40 then ([], (lexer.next l).2, some .SStringObj)
  else if (lexer.next l).1 == 60 then
    if (lexer.peek (lexer.next l).2).1 == 60 then
      ([], { lexer.backup (lexer.peek (lexer.next l).2).2 with
             dictDepth := (lexer.peek (lexer.next l).2).2.dictDepth + 1 }, some .SLeftDict)
    else ([], (lexer.peek (lexer.next l).2).2, some .SHexObj)
  else if (lexer.next l).1 == 91 then
    ([(lexer.emit (lexer.next l).2 .itemLeftArray).1],
     { (lexer.emit (lexer.next l).2 .itemLeftArray).2 with
       arrayDepth := (lexer.emit (lexer.next l).2 .itemLeftArray).2.arrayDepth + 1 },
     some .SDefault)
  else if (lexer.next l).1 == 93 then
    if ({ (lexer.next l).2 with arrayDepth := (lexer.next l).2.arrayDepth - 1 }).arrayDepth < 0 then
      errorf { (lexer.next l).2 with arrayDepth := (lexer.next l).2.arrayDepth - 1 }
        (strBytes "unexexpected array terminator")
    else
      ([(lexer.emit { (lexer.next l).2 with arrayDepth := (lexer.next l).2.arrayDepth - 1 }
           .itemRightArray).1],
       (lexer.emit { (lexer.next l).2 with arrayDepth := (lexer.next l).2.arrayDepth - 1 }
          .itemRightArray).2,
       some .SDefault)
  else if (lexer.next l).1 == 37 then ([], (lexer.next l).2, some .SComment)
  else if (lexer.next l).1 == 62 then
    if (lexer.peek (lexer.next l).2).1 == 62 then
      if ({ (lexer.peek (lexer.next l).2).2 with
            dictDepth := (lexer.peek (lexer.next l).2).2.dictDepth - 1 }).dictDepth < 0 then
        errorf { (lexer.peek (lexer.next l).2).2 with
                 dictDepth := (lexer.peek (lexer.next l).2).2.dictDepth - 1 }
          (strBytes "unexexpected dict terminator")
      else
        ([], lexer.backup { (lexer.peek (lexer.next l).2).2 with
              dictDepth := (lexer.peek (lexer.next l).2).2.dictDepth - 1 }, some .SRightDict)
    else lexAtEOF (lexer.peek (lexer.next l).2).2
  else if (lexer.next l).1 == -1 then lexAtEOF (lexer.next l).2
  else errorf (lexer.next l).2 (strBytes "illegal character: " ++ formatU (lexer.next l).1)

/-- The loop of source `lexSpace`: consume a maximal whitespace run. -/
def spaceLoop : Nat → lexer → Option lexer
  | 0, _ => none
  | f + 1, l =>
    if goIsSpace (lexer.peek l).1 then spaceLoop f (lexer.next (lexer.peek l).2).2
    else some (lexer.peek l).2

/-- Source `lexSpace`. -/
def lexSpace (fuel : Nat) (l : lexer) : Option StepRes :=
  (spaceLoop fuel l).map fun l1 =>
    let e := lexer.emit l1 .itemSpace
    ([e.1], e.2, some .SDefault)

/-- Source `lexName` (the for/switch loop written as fuel recursion). -/
def lexName : Nat → lexer → Option StepRes
  | 0, _ => none
  | f + 1, l =>
    let r := (lexer.next l).1
    let l1 := (lexer.next l).2
    if isDelim r || goIsSpace r || r == -1 then
      let l2 := lexer.backup l1
      let e := lexer.emit l2 .itemName
      some ([e.1], e.2, some .SDefault)
    else if decide (0x20 < r) && decide (r < 0x7F) then lexName f l1
    else some (errorf l1 (strBytes "illegal character in name: " ++ formatU r))

/-- The loop of source `lexStringObj`, carrying the paren balance. -/
def stringLoop : Nat → Int → lexer → Option StepRes
  | 0, _, _ => none
  | f + 1, balance, l =>
    let r := (lexer.next l).1
    let l1 := (lexer.next l).2
    if r == 92 then stringLoop f balance (lexer.accept l1 [40, 41]).2
    else if r == 40 then stringLoop f (balance + 1) l1
    else if r == 41 then
      if balance - 1 ≤ 0 then
        let e := lexer.emit l1 .itemString
        some ([e.1], e.2, some .SDefault)
      else stringLoop f (balance - 1) l1
    else if r == -1 then some (errorf l1 (strBytes "unterminated string object"))
    else stringLoop f balance l1

/-- Source `lexStringObj`: entered after the opening paren, balance = 1. -/
def lexStringObj (fuel : Nat) (l : lexer) : Option StepRes := stringLoop fuel 1 l

/-- Valid runes of the hex-string body ("0123456789abcdefABCDEF"). -/
def hexRunes : List Int := (strBytes "0123456789abcdefABCDEF").map Int.ofNat

/-- Source `lexHexObj`. -/
def lexHexObj : Nat → lexer → Option StepRes
  | 0, _ => none
  | f + 1, l =>
    let r := (lexer.next l).1
    let l1 := (lexer.next l).2
    if hexRunes.contains r || goIsSpace r then lexHexObj f l1
    else if r == 62 then
      let e := lexer.emit l1 .itemHexString
      some ([e.1], e.2, some .SDefault)
    else if r == -1 then some (errorf l1 (strBytes "unterminated hexstring"))
    else some (errorf l1 (strBytes "illegal character in hexstring: " ++ formatU r))

/-- The loop of source `lexComment`, carrying the last consumed rune `r`
(initially the zero rune, as Go's `var r rune`). -/
def commentLoop : Nat → Int → lexer → Option (Int × lexer)
  | 0, _, _ => none
  | f + 1, r, l =>
    if isEndOfLine (lexer.peek l).1 then some (r, (lexer.peek l).2)
    else commentLoop f (lexer.next (lexer.peek l).2).1 (lexer.next (lexer.peek l).2).2

/-- Source `lexComment`. -/
def lexComment (fuel : Nat) (l : lexer) : Option StepRes :=
  (commentLoop fuel 0 l).map fun rl =>
    let l1 := if rl.1 == 13 then (lexer.accept rl.2 [10]).2 else rl.2
    let e := lexer.emit l1 .itemComment
    ([e.1], e.2, some .SDefault)

/-- The loop of source `lexWord`: consume a maximal alphanumeric run. -/
def wordLoop : Nat → lexer → Option lexer
  | 0, _ => none
  | f + 1, l =>
    if isAlphaNumeric (lexer.peek l).1 then wordLoop f (lexer.next (lexer.peek l).2).2
    else some (lexer.peek l).2

/-- Source `keytoks` map, as a lookup on the scanned word. -/
def keytokLookup (w : List Nat) : Option itemType :=
  if w = strBytes "obj" then some .itemObj
  else if w = strBytes "endobj" then some .itemEndObj
  else if w = strBytes "stream" then some .itemStream
  else if w = strBytes "endstream" then some .itemEndStream
  else if w = strBytes "trailer" then some .itemTrailer
  else if w = strBytes "xref" then some .itemXref
  else if w = strBytes "startxref" then some .itemStartXref
  else if w = strBytes "true" then some .itemTrue
  else if w = strBytes "false" then some .itemFalse
  else if w = strBytes "null" then some .itemNull
  else none

/-- Source `lexWord`. -/
def lexWord (fuel : Nat) (l : lexer) : Option StepRes :=
  (wordLoop fuel l).map fun l1 =>
    match keytokLookup (sliceB l1.input l1.start l1.pos) with
    | some tok =>
      let e := lexer.emit l1 tok
      ([e.1], e.2, some (if tok = .itemStream then stateTag.SStream else stateTag.SDefault))
    | none =>
      let e := lexer.emit l1 .itemWord
      ([e.1], e.2, some .SDefault)

/-- Source `strings.Index`: byte index of the first occurrence of `pat`, or -1. -/
def goIndex (pat : List Nat) : List Nat → Int
  | [] => if pat = [] then 0 else -1
  | b :: t =>
    if pat.isPrefixOf (b :: t) then 0
    else
      let j := goIndex pat t
      if j < 0 then -1 else j + 1

/-- Bytes of the `rightStream` marker, "endstream". -/
def rightStreamB : List Nat := strBytes "endstream"

/-- Source `lexStream`: raw substring search for the "endstream" marker. -/
def lexStream (l : lexer) : StepRes :=
  let i := goIndex rightStreamB (l.input.drop l.pos)
  if i < 0 then errorf l (strBytes "unclosed stream")
  else
    let la := { l with pos := l.pos + i.toNat }
    let e1 := lexer.emit la .itemStreamBody
    let lb := { e1.2 with pos := e1.2.pos + rightStreamB.length }
    let e2 := lexer.emit lb .itemEndStream
    ([e1.1, e2.1], e2.2, some .SDefault)

/-- Source `lexLeftDict`: the two delimiter bytes are known to be present. -/
def lexLeftDict (l : lexer) : StepRes :=
  let la := { l with pos := l.pos + 2 }
  let e := lexer.emit la .itemLeftDict
  ([e.1], e.2, some .SDefault)

/-- Source `lexRightDict`. -/
def lexRightDict (l : lexer) : StepRes :=
  let la := { l with pos := l.pos + 2 }
  let e := lexer.emit la .itemRightDict
  ([e.1], e.2, some .SDefault)

/-- Valid runes of a number body ("0123456789"). -/
def numRunes : List Int := (strBytes "0123456789").map Int.ofNat

/-- Source `scanNumber`: optional sign, digit run, optional point, digit run,
then the boundary check.  Returns the success flag and the updated state. -/
def scanNumber (fuel : Nat) (l : lexer) : Option (Bool × lexer) :=
  match acceptRun fuel numRunes (lexer.accept l [43, 45]).2 with
  | none => none
  | some l2 =>
    match (if (lexer.accept l2 [46]).1 then acceptRun fuel numRunes (lexer.accept l2 [46]).2
           else some (lexer.accept l2 [46]).2) with
    | none => none
    | some l3 =>
      if isDelim (lexer.peek l3).1 || goIsSpace (lexer.peek l3).1 || (lexer.peek l3).1 == -1 then
        some (true, (lexer.peek l3).2)
      else some (false, (lexer.next (lexer.peek l3).2).2)

/-- Source `lexNumber`. -/
def lexNumber (fuel : Nat) (l : lexer) : Option StepRes :=
  (scanNumber fuel l).map fun res =>
    if res.1 then
      let e := lexer.emit res.2 .itemNumber
      ([e.1], e.2, some .SDefault)
    else
      errorf res.2
        (strBytes "bad number syntax: " ++ goQuote (sliceB res.2.input res.2.start res.2.pos))

/-- One invocation of the current state function. -/
def step (fuel : Nat) (s : stateTag) (l : lexer) : Option StepRes :=
  match s with
  | .SDefault => some (lexDefault l)
  | .SSpace => lexSpace fuel l
  | .SName => lexName fuel l
  | .SNumber => lexNumber fuel l
  | .SStringObj => lexStringObj fuel l
  | .SHexObj => lexHexObj fuel l
  | .SComment => lexComment fuel l
  | .SWord => lexWord fuel l
  | .SStream => some (lexStream l)
  | .SLeftDict => some (lexLeftDict l)
  | .SRightDict => some (lexRightDict l)

/-- Result of a (fuel-bounded) run: the emitted items, the final scanner
state, and whether the machine reached its `nil` state within the fuel. -/
structure RunOut where
  items : List item
  fin : lexer
  halted : Bool
deriving DecidableEq

/-- Source `run`: iterate the state machine from a given state. -/
def runFrom : Nat → stateTag → lexer → RunOut
  | 0, _, l => ⟨[], l, false⟩
  | f + 1, s, l =>
    match step (f + 1) s l with
    | none => ⟨[], l, false⟩
    | some (its, l1, none) => ⟨its, l1, true⟩
    | some (its, l1, some s1) =>
      let r := runFrom f s1 l1
      ⟨its ++ r.items, r.fin, r.halted⟩

/-- Source `lex`: a fresh scanner on the input, started in `lexDefault` (the
diagnostic `name` argument is omitted, see `lexer`). -/
def lexRun (input : List Nat) (fuel : Nat) : RunOut :=
  runFrom fuel .SDefault ⟨input, 0, 0, 0, 0, 0⟩

/-- Concatenated raw values of all emitted items. -/
def allBytes (its : List item) : List Nat := (its.map item.val).flatten

/-- Concatenated raw values of the items emitted through `emit` (everything
except error items, whose value is a message rather than input text). -/
def emittedBytes : List item → List Nat
  | [] => []
  | it :: rest => (if it.typ = .itemError then [] else it.val) ++ emittedBytes rest

/-! Basic facts about the modelled UTF-8 decoder. -/

theorem utf8_width (xs : List Nat) (h : xs ≠ []) :
    1 ≤ (utf8DecodeRune xs).2 ∧ (utf8DecodeRune xs).2 ≤ xs.length := by
  match xs with
  | b0 :: rest =>
    simp only [utf8DecodeRune]
    repeat' split
    all_goals simp_all

theorem utf8_low (b0 : Nat) (rest : List Nat)
    (h : (utf8DecodeRune (b0 :: rest)).1 < 0x80) :
    b0 < 0x80 ∧ utf8DecodeRune (b0 :: rest) = (Int.ofNat b0, 1) := by
  by_cases hb : b0 < 0x80
  · simp [utf8DecodeRune, hb]
  · exfalso
    simp only [utf8DecodeRune] at h
    repeat' split at h
    all_goals simp_all
    all_goals omega

theorem utf8_ascii (b0 : Nat) (rest : List Nat) (hb : b0 < 0x80) :
    utf8DecodeRune (b0 :: rest) = (Int.ofNat b0, 1) := by
  simp [utf8DecodeRune, hb]

theorem utf8_high (b0 : Nat) (rest : List Nat) (hb : 0x80 ≤ b0) :
    ∀ b ∈ (b0 :: rest).take (utf8DecodeRune (b0 :: rest)).2, 0x80 ≤ b := by
  simp only [utf8DecodeRune]
  have hb' : ¬ b0 < 0x80 := by omega
  repeat' split
  all_goals simp_all [List.take_succ_cons]
  all_goals omega

theorem utf8_not_crlf (b0 : Nat) (rest : List Nat)
    (h13 : (utf8DecodeRune (b0 :: rest)).1 ≠ 13)
    (h10 : (utf8DecodeRune (b0 :: rest)).1 ≠ 10) :
    ∀ b ∈ (b0 :: rest).take (utf8DecodeRune (b0 :: rest)).2, b ≠ 13 ∧ b ≠ 10 := by
  by_cases hb : b0 < 0x80
  · rw [utf8_ascii b0 rest hb] at h13 h10 ⊢
    simp only [List.take_succ_cons, List.take_zero]
    intro b hbmem
    simp at hbmem
    subst hbmem
    refine ⟨fun hc => ?_, fun hc => ?_⟩ <;> (subst hc; simp_all)
  · intro b hbmem
    have := utf8_high b0 rest (by omega) b hbmem
    omega

/-! Facts about the scanner primitives. -/

theorem backup_pos (l : lexer) : (lexer.backup l).pos = l.pos - l.width := rfl

theorem next_input (l : lexer) : (lexer.next l).2.input = l.input := by
  unfold lexer.next; split <;> rfl

theorem next_start (l : lexer) : (lexer.next l).2.start = l.start := by
  unfold lexer.next; split <;> rfl

theorem next_arrayDepth (l : lexer) : (lexer.next l).2.arrayDepth = l.arrayDepth := by
  unfold lexer.next; split <;> rfl

theorem next_dictDepth (l : lexer) : (lexer.next l).2.dictDepth = l.dictDepth := by
  unfold lexer.next; split <;> rfl

theorem next_pos_ge (l : lexer) : l.pos ≤ (lexer.next l).2.pos := by
  unfold lexer.next; split <;> simp

theorem next_pos_le (l : lexer) (h : l.pos ≤ l.input.length) :
    (lexer.next l).2.pos ≤ l.input.length := by
  unfold lexer.next
  split
  · simpa using h
  · rename_i hlt
    simp only
    have hne : l.input.drop l.pos ≠ [] := by
      intro hc
      have := congrArg List.length hc
      simp at this
      omega
    have hw := (utf8_width _ hne).2
    simp at hw
    omega

theorem next_backup_pos (l : lexer) : (lexer.backup (lexer.next l).2).pos = l.pos := by
  unfold lexer.next
  split <;> simp [backup_pos]

theorem next_irrel_width (l : lexer) (w : Nat) :
    lexer.next { l with width := w } = lexer.next l := by
  unfold lexer.next
  by_cases h : l.input.length ≤ l.pos <;> simp [h]

theorem peek_fst (l : lexer) : (lexer.peek l).1 = (lexer.next l).1 := rfl

theorem peek_snd (l : lexer) : (lexer.peek l).2 = { l with width := (lexer.next l).2.width } := by
  unfold lexer.peek lexer.next lexer.backup
  by_cases h : l.input.length ≤ l.pos <;> simp [h]

theorem peek_then_next (l : lexer) : lexer.next (lexer.peek l).2 = lexer.next l := by
  rw [peek_snd, next_irrel_width]

theorem emit_fst (l : lexer) (t : itemType) :
    (lexer.emit l t).1 = ⟨t, l.start, sliceB l.input l.start l.pos⟩ := rfl

theorem emit_snd (l : lexer) (t : itemType) : (lexer.emit l t).2 = { l with start := l.pos } := rfl

/-- Progress of a state function between emissions: the input, the pending
token start and the depth counters are unchanged, and the position only moves
forward, staying within the input. -/
def presLex (l l1 : lexer) : Prop :=
  l1.input = l.input ∧ l1.start = l.start ∧ l1.arrayDepth = l.arrayDepth ∧
  l1.dictDepth = l.dictDepth ∧ l.pos ≤ l1.pos ∧
  (l.pos ≤ l.input.length → l1.pos ≤ l.input.length)

theorem presLex_refl (l : lexer) : presLex l l := by
  simp [presLex]

theorem presLex_trans {l l1 l2 : lexer} (h1 : presLex l l1) (h2 : presLex l1 l2) :
    presLex l l2 := by
  obtain ⟨a1, b1, c1, d1, e1, f1⟩ := h1
  obtain ⟨a2, b2, c2, d2, e2, f2⟩ := h2
  refine ⟨a2.trans a1, b2.trans b1, c2.trans c1, d2.trans d1, e1.trans e2, fun h => ?_⟩
  have := f2 (by rw [a1]; exact f1 h)
  rw [a1] at this
  exact this

theorem presLex_next (l : lexer) : presLex l (lexer.next l).2 :=
  ⟨next_input l, next_start l, next_arrayDepth l, next_dictDepth l, next_pos_ge l,
   next_pos_le l⟩

theorem presLex_next_backup (l : lexer) : presLex l (lexer.backup (lexer.next l).2) := by
  refine ⟨by simp [lexer.backup, next_input], by simp [lexer.backup, next_start],
          by simp [lexer.backup, next_arrayDepth], by simp [lexer.backup, next_dictDepth],
          by rw [next_backup_pos], fun h => by rwa [next_backup_pos]⟩

theorem presLex_peek (l : lexer) : presLex l (lexer.peek l).2 := by
  rw [peek_snd]
  exact ⟨rfl, rfl, rfl, rfl, Nat.le_refl _, fun h => h⟩

theorem presLex_accept (l : lexer) (valid : List Int) : presLex l (lexer.accept l valid).2 := by
  unfold lexer.accept
  split
  · exact presLex_next l
  · exact presLex_next_backup l

theorem acceptRun_presLex (f : Nat) (valid : List Int) (l l1 : lexer)
    (h : acceptRun f valid l = some l1) : presLex l l1 := by
  induction f generalizing l with
  | zero => simp [acceptRun] at h
  | succ f ih =>
    unfold acceptRun at h
    split at h
    · exact presLex_trans (presLex_next l) (ih _ h)
    · cases h
      exact presLex_next_backup l

theorem spaceLoop_presLex (f : Nat) (l l1 : lexer)
    (h : spaceLoop f l = some l1) : presLex l l1 := by
  induction f generalizing l with
  | zero => simp [spaceLoop] at h
  | succ f ih =>
    unfold spaceLoop at h
    split at h
    · rw [peek_then_next] at h
      exact presLex_trans (presLex_next l) (ih _ h)
    · cases h
      exact presLex_peek l

theorem wordLoop_presLex (f : Nat) (l l1 : lexer)
    (h : wordLoop f l = some l1) : presLex l l1 := by
  induction f generalizing l with
  | zero => simp [wordLoop] at h
  | succ f ih =>
    unfold wordLoop at h
    split at h
    · rw [peek_then_next] at h
      exact presLex_trans (presLex_next l) (ih _ h)
    · cases h
      exact presLex_peek l

/-! The tiling predicate: emitted items cover the consumed input contiguously
and in order; an error item sits at the pending token start and carries a
message instead of input text. -/

def tiles (input : List Nat) : Nat → List item → Nat → Prop
  | a, [], b => a = b
  | a, it :: rest, b =>
    it.pos = a ∧
    (if it.typ = .itemError then tiles input a rest b
     else it.val = sliceB input a (a + it.val.length) ∧ a + it.val.length ≤ input.length ∧
       tiles input (a + it.val.length) rest b)

theorem tiles_le (input : List Nat) :
    ∀ its a b, tiles input a its b → a ≤ b := by
  intro its
  induction its with
  | nil => intro a b h; simp [tiles] at h; omega
  | cons it rest ih =>
    intro a b h
    simp only [tiles] at h
    obtain ⟨-, h2⟩ := h
    split at h2
    · exact ih _ _ h2
    · have := ih _ _ h2.2.2
      omega

theorem tiles_append (input : List Nat) :
    ∀ xs ys a b c, tiles input a xs b → tiles input b ys c →
      tiles input a (xs ++ ys) c := by
  intro xs
  induction xs with
  | nil =>
    intro ys a b c h1 h2
    simp [tiles] at h1
    subst h1
    simpa using h2
  | cons it rest ih =>
    intro ys a b c h1 h2
    simp only [tiles, List.cons_append] at h1 ⊢
    obtain ⟨hpos, h1'⟩ := h1
    refine ⟨hpos, ?_⟩
    split at h1'
    · rename_i he
      simp only [he, if_pos rfl] at *
      exact ih _ _ _ _ h1' h2
    · rename_i he
      simp only [if_neg he]
      exact ⟨h1'.1, h1'.2.1, ih _ _ _ _ h1'.2.2 h2⟩

theorem sliceB_append (xs : List Nat) (a m b : Nat) (h1 : a ≤ m) (h2 : m ≤ b) :
    sliceB xs a m ++ sliceB xs m b = sliceB xs a b := by
  unfold sliceB
  have hd : xs.drop m = (xs.drop a).drop (m - a) := by
    rw [List.drop_drop]
    congr 1
    omega
  rw [hd, ← List.take_add]
  congr 1
  omega

theorem sliceB_length (xs : List Nat) (a b : Nat) (h1 : a ≤ b) (h2 : b ≤ xs.length) :
    (sliceB xs a b).length = b - a := by
  unfold sliceB
  simp
  omega

theorem tiles_emitted (input : List Nat) :
    ∀ its a b, tiles input a its b → emittedBytes its = sliceB input a b := by
  intro its
  induction its with
  | nil =>
    intro a b h
    simp [tiles] at h
    subst h
    simp [emittedBytes, sliceB]
  | cons it rest ih =>
    intro a b h
    simp only [tiles] at h
    obtain ⟨-, h2⟩ := h
    split at h2
    · rename_i he
      simp only [emittedBytes, he, if_pos rfl, List.nil_append]
      exact ih _ _ h2
    · rename_i he
      obtain ⟨hval, hlen, hrest⟩ := h2
      simp only [emittedBytes, if_neg he]
      rw [ih _ _ hrest,
          ← sliceB_append input a (a + it.val.length) b (by omega) (tiles_le input rest _ _ hrest),
          ← hval]

theorem tiles_val (input : List Nat) :
    ∀ its a b, tiles input a its b →
      ∀ it ∈ its, it.typ ≠ .itemError →
        it.val = sliceB input it.pos (it.pos + it.val.length) := by
  intro its
  induction its with
  | nil => intro a b _ it hmem; simp at hmem
  | cons hd rest ih =>
    intro a b h it hmem hne
    simp only [tiles] at h
    obtain ⟨hpos, h2⟩ := h
    rcases List.mem_cons.mp hmem with heq | hmem'
    · subst heq
      split at h2
      · exact absurd (by assumption) hne
      · rw [hpos]
        exact h2.1
    · split at h2
      · exact ih _ _ h2 it hmem' hne
      · exact ih _ _ h2.2.2 it hmem' hne

theorem tiles_emit (l : lexer) (t : itemType) (h1 : l.start ≤ l.pos)
    (h2 : l.pos ≤ l.input.length) (ht : ¬ t = .itemError) :
    tiles l.input l.start [(lexer.emit l t).1] l.pos := by
  rw [emit_fst]
  simp only [tiles, if_neg ht]
  have hlen : (sliceB l.input l.start l.pos).length = l.pos - l.start :=
    sliceB_length _ _ _ h1 h2
  refine ⟨trivial, ?_, by omega, by omega⟩
  rw [hlen]
  congr 1
  omega

theorem tiles_err (input : List Nat) (a : Nat) (msg : List Nat) :
    tiles input a [⟨.itemError, a, msg⟩] a := by
  simp [tiles]

/-! Byte access helpers. -/

theorem getElem?_of_drop_cons (xs : List Nat) (p b : Nat) (t : List Nat)
    (h : xs.drop p = b :: t) : xs[p]? = some b := by
  have h0 : (xs.drop p)[0]? = xs[p + 0]? := List.getElem?_drop xs p 0
  rw [h] at h0
  simpa using h0.symm

theorem lt_length_of_getElem? (xs : List Nat) (p b : Nat) (h : xs[p]? = some b) :
    p < xs.length :=
  (List.getElem?_eq_some.mp h).1

theorem drop_cons_of_getElem? (xs : List Nat) (p b : Nat) (h : xs[p]? = some b) :
    xs.drop p = b :: xs.drop (p + 1) := by
  have hlt : p < xs.length := (List.getElem?_eq_some.mp h).1
  rw [List.drop_eq_getElem_cons hlt]
  have hb : xs[p] = b := by
    have h2 := List.getElem?_eq_getElem hlt
    rw [h] at h2
    exact (Option.some_inj.mp h2).symm
  rw [hb]

theorem sliceB_self (xs : List Nat) (a : Nat) : sliceB xs a a = [] := by
  simp [sliceB]

/-! Behavior of the comment-scanning loop. -/

theorem commentLoop_none_at_end (f : Nat) (r : Int) (l : lexer)
    (h : l.input.length ≤ l.pos) : commentLoop f r l = none := by
  induction f generalizing r l with
  | zero => rfl
  | succ f ih =>
    have hnext : lexer.next l = (-1, { l with width := 0 }) := by
      unfold lexer.next
      rw [if_pos h]
    unfold commentLoop
    rw [peek_then_next, peek_fst, hnext]
    simp only [isEndOfLine]
    norm_num
    exact ih _ _ (by simpa using h)

theorem commentLoop_spec (f : Nat) (r0 : Int) (l : lexer) (rr : Int) (l1 : lexer)
    (h : commentLoop f r0 l = some (rr, l1)) :
    presLex l l1 ∧ l1.pos < l.input.length ∧
    (l.input[l1.pos]? = some 13 ∨ l.input[l1.pos]? = some 10) ∧
    (∀ b ∈ sliceB l.input l.pos l1.pos, b ≠ 13 ∧ b ≠ 10) ∧
    (r0 ≠ 13 → rr ≠ 13) := by
  induction f generalizing r0 l with
  | zero => simp [commentLoop] at h
  | succ f ih =>
    unfold commentLoop at h
    rw [peek_then_next, peek_fst] at h
    by_cases hend : l.input.length ≤ l.pos
    · exfalso
      have hnext : lexer.next l = (-1, { l with width := 0 }) := by
        unfold lexer.next
        rw [if_pos hend]
      rw [hnext] at h
      simp only [isEndOfLine] at h
      norm_num at h
      have := commentLoop_none_at_end f (-1) { l with width := 0 } (by simpa using hend)
      rw [this] at h
      exact Option.noConfusion h
    · push_neg at hend
      have hdrop : l.input.drop l.pos = l.input[l.pos] :: l.input.drop (l.pos + 1) :=
        List.drop_eq_getElem_cons hend
      have hnexteq : lexer.next l =
          ((utf8DecodeRune (l.input.drop l.pos)).1,
           { l with width := (utf8DecodeRune (l.input.drop l.pos)).2,
                    pos := l.pos + (utf8DecodeRune (l.input.drop l.pos)).2 }) := by
        unfold lexer.next
        rw [if_neg (by omega)]
      split at h
      · rename_i hEOL
        cases h
        have hr : isEndOfLine (lexer.next l).1 = true := by simpa using hEOL
        rw [hnexteq] at hr
        simp only [isEndOfLine, Bool.or_eq_true, beq_iff_eq] at hr
        have hlow : (utf8DecodeRune (l.input.drop l.pos)).1 < 0x80 := by
          rcases hr with h13 | h10 <;> omega
        rw [hdrop] at hlow
        obtain ⟨hb0, heq⟩ := utf8_low _ _ hlow
        have hbyte : l.input[l.pos] = 13 ∨ l.input[l.pos] = 10 := by
          rw [hdrop] at hr
          rw [heq] at hr
          simp at hr
          omega
        refine ⟨presLex_peek l, ?_, ?_, ?_, fun h13 => h13⟩
        · rw [peek_snd]
          exact hend
        · rw [peek_snd]
          simp only
          have := List.getElem?_eq_getElem hend
          rcases hbyte with hb | hb <;> rw [hb] at this
          · exact Or.inl this
          · exact Or.inr this
        · rw [peek_snd]
          simp only [sliceB_self]
          intro b hb
          simp at hb
      · rename_i hEOL
        have hr13 : (lexer.next l).1 ≠ 13 ∧ (lexer.next l).1 ≠ 10 := by
          by_contra hc
          apply hEOL
          simp only [isEndOfLine, Bool.or_eq_true, beq_iff_eq]
          push_neg at hc
          by_cases h13 : (lexer.next l).1 = 13
          · exact Or.inl h13
          · exact Or.inr (hc h13)
        obtain ⟨hp1, hp2, hp3, hp4, hp5⟩ := ih _ _ h
        have hin : (lexer.next l).2.input = l.input := next_input l
        refine ⟨presLex_trans (presLex_next l) hp1, ?_, ?_, ?_, fun _ => hp5 hr13.1⟩
        · rw [hin] at hp2
          exact hp2
        · rw [hin] at hp3
          exact hp3
        · -- the consumed rune's bytes, then the tail slice from the recursion
          intro b hb
          have hw1 : 1 ≤ (utf8DecodeRune (l.input.drop l.pos)).2 :=
            (utf8_width _ (by rw [hdrop]; exact List.cons_ne_nil _ _)).1
          have hw2 : (utf8DecodeRune (l.input.drop l.pos)).2 ≤ (l.input.drop l.pos).length :=
            (utf8_width _ (by rw [hdrop]; exact List.cons_ne_nil _ _)).2
          have hposn : (lexer.next l).2.pos = l.pos + (utf8DecodeRune (l.input.drop l.pos)).2 := by
            rw [hnexteq]
          have hple : (lexer.next l).2.pos ≤ l1.pos := hp1.2.2.2.2.1
          have hsplit := sliceB_append l.input l.pos (lexer.next l).2.pos l1.pos
            (by rw [hposn]; omega) hple
          rw [← hsplit] at hb
          rcases List.mem_append.mp hb with hbl | hbr
          · -- a byte of the consumed rune
            have : sliceB l.input l.pos (lexer.next l).2.pos =
                (l.input.drop l.pos).take (utf8DecodeRune (l.input.drop l.pos)).2 := by
              unfold sliceB
              rw [hposn]
              congr 1
              omega
            rw [this] at hbl
            rw [hdrop] at hbl
            have h13 := hr13.1
            have h10 := hr13.2
            rw [hnexteq] at h13 h10
            simp only at h13 h10
            rw [hdrop] at h13 h10
            exact utf8_not_crlf _ _ h13 h10 b hbl
          · exact hp4 b (by rw [hin]; exact hbr)

/-! Per-state entry conditions and the common specification of one step. -/

theorem utf8_nonneg (xs : List Nat) : 0 ≤ (utf8DecodeRune xs).1 := by
  unfold utf8DecodeRune
  repeat' split
  all_goals simp
  all_goals positivity

theorem next_eq_ascii (l : lexer) (v : Nat) (hv : v < 0x80)
    (h : (lexer.next l).1 = Int.ofNat v) :
    l.pos < l.input.length ∧ l.input.drop l.pos = v :: l.input.drop (l.pos + 1) ∧
    lexer.next l = (Int.ofNat v, { l with width := 1, pos := l.pos + 1 }) := by
  by_cases hend : l.input.length ≤ l.pos
  · exfalso
    have : lexer.next l = (-1, { l with width := 0 }) := by
      unfold lexer.next
      rw [if_pos hend]
    rw [this] at h
    have h2 : (-1 : Int) = Int.ofNat v := h
    rw [Int.ofNat_eq_natCast] at h2
    omega
  · push_neg at hend
    have hdrop : l.input.drop l.pos = l.input[l.pos] :: l.input.drop (l.pos + 1) :=
      List.drop_eq_getElem_cons hend
    have hnexteq : lexer.next l =
        ((utf8DecodeRune (l.input.drop l.pos)).1,
         { l with width := (utf8DecodeRune (l.input.drop l.pos)).2,
                  pos := l.pos + (utf8DecodeRune (l.input.drop l.pos)).2 }) := by
      unfold lexer.next
      rw [if_neg (by omega)]
    rw [hnexteq] at h
    simp only at h
    have hlow : (utf8DecodeRune (l.input.drop l.pos)).1 < 0x80 := by
      rw [h, Int.ofNat_eq_natCast]
      exact_mod_cast hv
    rw [hdrop] at hlow
    obtain ⟨hb0, heq⟩ := utf8_low _ _ hlow
    rw [hdrop] at h
    rw [heq] at h
    simp at h
    have hbyte : l.input[l.pos] = v := h
    refine ⟨hend, by rw [hdrop, hbyte], ?_⟩
    rw [hnexteq, hdrop, heq, hbyte]

theorem next_eof (l : lexer) (h : (lexer.next l).1 = -1) :
    l.input.length ≤ l.pos ∧ (lexer.next l).2 = { l with width := 0 } := by
  by_cases hend : l.input.length ≤ l.pos
  · refine ⟨hend, ?_⟩
    unfold lexer.next
    rw [if_pos hend]
  · exfalso
    push_neg at hend
    have hnexteq : (lexer.next l).1 = (utf8DecodeRune (l.input.drop l.pos)).1 := by
      unfold lexer.next
      rw [if_neg (by omega)]
    have := utf8_nonneg (l.input.drop l.pos)
    rw [hnexteq] at h
    omega

/-- Entry conditions of the states: the two delimiter states are only entered
with their two delimiter bytes in place. -/
def stateInv : stateTag → lexer → Prop
  | .SLeftDict, l => l.input[l.pos]? = some 60 ∧ l.input[l.pos + 1]? = some 60
  | .SRightDict, l => l.input[l.pos]? = some 62 ∧ l.input[l.pos + 1]? = some 62
  | _, _ => True

/-- Common specification of one state-function invocation from `l`: the input
is unchanged, positions stay ordered and in range, the emitted items tile the
input from the old pending start to the new one, the next state's entry
condition holds, and nonnegative depth counters stay nonnegative when the
scan continues. -/
def stepOK (l : lexer) (out : StepRes) : Prop :=
  out.2.1.input = l.input ∧
  l.start ≤ out.2.1.start ∧
  out.2.1.start ≤ out.2.1.pos ∧
  out.2.1.pos ≤ l.input.length ∧
  tiles l.input l.start out.1 out.2.1.start ∧
  (∀ s1, out.2.2 = some s1 → stateInv s1 out.2.1) ∧
  (out.2.2 = none ∨
    (0 ≤ l.arrayDepth → 0 ≤ l.dictDepth →
      0 ≤ out.2.1.arrayDepth ∧ 0 ≤ out.2.1.dictDepth))

theorem stepOK_pres (l l1 : lexer) (out : StepRes) (hp : presLex l l1)
    (h : stepOK l1 out) : stepOK l out := by
  obtain ⟨hin, hst, hsp, hpl, hti, hsi, hdep⟩ := h
  obtain ⟨pin, pst, pad, pdd, ppos, plen⟩ := hp
  refine ⟨by rw [hin, pin], by rw [pst] at hst; exact hst, hsp, by rw [pin] at hpl; exact hpl,
          by rw [pin, pst] at hti; exact hti, hsi, ?_⟩
  rcases hdep with hd | hd
  · exact Or.inl hd
  · exact Or.inr fun ha hd2 => hd (by rw [pad]; exact ha) (by rw [pdd]; exact hd2)

theorem stepOK_trans (l l1 : lexer) (s1 : stateTag) (hp : presLex l l1)
    (hinv : l.start ≤ l.pos) (hlen : l.pos ≤ l.input.length)
    (hs1 : stateInv s1 l1) : stepOK l ([], l1, some s1) := by
  obtain ⟨pin, pst, pad, pdd, ppos, plen⟩ := hp
  unfold stepOK
  dsimp only
  refine ⟨pin, by omega, by omega, by exact plen hlen, ?_, ?_, ?_⟩
  · rw [pst]
    exact rfl
  · intro s2 hs2
    cases hs2
    exact hs1
  · exact Or.inr fun ha hd => by rw [pad, pdd]; exact ⟨ha, hd⟩

theorem stepOK_emit1 (l l1 : lexer) (t : itemType) (nxt : Option stateTag)
    (hp : presLex l l1) (hinv : l.start ≤ l.pos) (hlen : l.pos ≤ l.input.length)
    (ht : ¬ t = .itemError)
    (hs1 : ∀ s1, nxt = some s1 → stateInv s1 (lexer.emit l1 t).2) :
    stepOK l ([(lexer.emit l1 t).1], (lexer.emit l1 t).2, nxt) := by
  obtain ⟨pin, pst, pad, pdd, ppos, plen⟩ := hp
  have h1 : l1.start ≤ l1.pos := by omega
  have h2 : l1.pos ≤ l1.input.length := by rw [pin]; exact plen hlen
  have hti := tiles_emit l1 t h1 h2 ht
  rw [pin, pst] at hti
  unfold stepOK
  rw [emit_snd]
  dsimp only
  refine ⟨pin, by omega, Nat.le_refl _, by rw [pin] at h2; exact h2, hti, ?_, ?_⟩
  · intro s2 hs2
    have := hs1 s2 hs2
    rw [emit_snd] at this
    exact this
  · exact Or.inr fun ha hd => by rw [pad, pdd]; exact ⟨ha, hd⟩

theorem stepOK_err (l l1 : lexer) (msg : List Nat)
    (hin : l1.input = l.input) (hst : l1.start = l.start)
    (hinv : l.start ≤ l1.pos) (hlen : l1.pos ≤ l.input.length) :
    stepOK l (errorf l1 msg) := by
  refine ⟨hin, ?_, ?_, ?_, ?_, ?_, ?_⟩
  · show l.start ≤ l1.start
    omega
  · show l1.start ≤ l1.pos
    omega
  · show l1.pos ≤ l.input.length
    exact hlen
  · show tiles l.input l.start [⟨.itemError, l1.start, msg⟩] l1.start
    rw [hst]
    exact tiles_err l.input l.start msg
  · intro s1 hs1
    exact nomatch hs1
  · exact Or.inl rfl

/-! Per-state specifications. -/

theorem lexSpace_stepOK (f : Nat) (l : lexer) (out : StepRes)
    (h : lexSpace f l = some out) (h1 : l.start ≤ l.pos) (h2 : l.pos ≤ l.input.length) :
    stepOK l out := by
  unfold lexSpace at h
  cases hsl : spaceLoop f l with
  | none => rw [hsl] at h; exact Option.noConfusion h
  | some l1 =>
    rw [hsl] at h
    simp only [Option.map_some'] at h
    cases h
    exact stepOK_emit1 l l1 .itemSpace (some .SDefault) (spaceLoop_presLex f l l1 hsl) h1 h2
      (by simp) (fun s1 hs1 => by cases hs1; trivial)

theorem keytok_ne_error (w : List Nat) (t : itemType) (h : keytokLookup w = some t) :
    ¬ t = .itemError := by
  unfold keytokLookup at h
  repeat' split at h
  all_goals first
    | (cases h; simp)
    | exact Option.noConfusion h

theorem lexWord_stepOK (f : Nat) (l : lexer) (out : StepRes)
    (h : lexWord f l = some out) (h1 : l.start ≤ l.pos) (h2 : l.pos ≤ l.input.length) :
    stepOK l out := by
  unfold lexWord at h
  cases hwl : wordLoop f l with
  | none => rw [hwl] at h; exact Option.noConfusion h
  | some l1 =>
    rw [hwl] at h
    simp only [Option.map_some'] at h
    cases hk : keytokLookup (sliceB l1.input l1.start l1.pos) with
    | some tok =>
      rw [hk] at h
      cases h
      exact stepOK_emit1 l l1 tok _ (wordLoop_presLex f l l1 hwl) h1 h2
        (keytok_ne_error _ _ hk)
        (fun s1 hs1 => by
          cases hs1
          by_cases hts : tok = itemType.itemStream <;> simp [hts, stateInv])
    | none =>
      rw [hk] at h
      cases h
      exact stepOK_emit1 l l1 .itemWord _ (wordLoop_presLex f l l1 hwl) h1 h2
        (by simp) (fun s1 hs1 => by cases hs1; trivial)

theorem lexName_stepOK : ∀ (f : Nat) (l : lexer) (out : StepRes),
    lexName f l = some out → l.start ≤ l.pos → l.pos ≤ l.input.length → stepOK l out := by
  intro f
  induction f with
  | zero => intro l out h h1 h2; exact Option.noConfusion h
  | succ f ih =>
    intro l out h h1 h2
    unfold lexName at h
    dsimp only at h
    split at h
    · cases h
      exact stepOK_emit1 l _ .itemName _ (presLex_next_backup l) h1 h2 (by simp)
        (fun s1 hs1 => by cases hs1; trivial)
    · split at h
      · refine stepOK_pres l _ out (presLex_next l) (ih _ out h ?_ ?_)
        · rw [next_start]
          exact le_trans h1 (next_pos_ge l)
        · rw [next_input]
          exact next_pos_le l h2
      · cases h
        exact stepOK_err l _ _ (next_input l) (next_start l)
          (le_trans h1 (next_pos_ge l)) (next_pos_le l h2)

theorem stringLoop_stepOK : ∀ (f : Nat) (bal : Int) (l : lexer) (out : StepRes),
    stringLoop f bal l = some out → l.start ≤ l.pos → l.pos ≤ l.input.length →
    stepOK l out := by
  intro f
  induction f with
  | zero => intro bal l out h h1 h2; exact Option.noConfusion h
  | succ f ih =>
    intro bal l out h h1 h2
    have hnb : (lexer.next l).2.start ≤ (lexer.next l).2.pos := by
      rw [next_start]
      exact le_trans h1 (next_pos_ge l)
    have hnl : (lexer.next l).2.pos ≤ (lexer.next l).2.input.length := by
      rw [next_input]
      exact next_pos_le l h2
    unfold stringLoop at h
    dsimp only at h
    split at h
    · -- escaped: accept a paren and continue
      have hp : presLex l (lexer.accept (lexer.next l).2 [40, 41]).2 :=
        presLex_trans (presLex_next l) (presLex_accept _ _)
      refine stepOK_pres l _ out hp (ih _ _ out h ?_ ?_)
      · obtain ⟨pin, pst, -, -, ppos, plen⟩ := presLex_accept (lexer.next l).2 ([40, 41] : List Int)
        rw [pst, next_start]
        calc l.start ≤ l.pos := h1
        _ ≤ (lexer.next l).2.pos := next_pos_ge l
        _ ≤ _ := ppos
      · obtain ⟨pin, pst, -, -, ppos, plen⟩ := presLex_accept (lexer.next l).2 ([40, 41] : List Int)
        rw [pin, next_input]
        have := plen hnl
        rw [next_input] at this
        exact this
    · split at h
      · exact stepOK_pres l _ out (presLex_next l) (ih _ _ out h hnb hnl)
      · split at h
        · split at h
          · cases h
            exact stepOK_emit1 l _ .itemString _ (presLex_next l) h1 h2 (by simp)
              (fun s1 hs1 => by cases hs1; trivial)
          · exact stepOK_pres l _ out (presLex_next l) (ih _ _ out h hnb hnl)
        · split at h
          · cases h
            exact stepOK_err l _ _ (next_input l) (next_start l)
              (le_trans h1 (next_pos_ge l)) (next_pos_le l h2)
          · exact stepOK_pres l _ out (presLex_next l) (ih _ _ out h hnb hnl)

theorem lexHexObj_stepOK : ∀ (f : Nat) (l : lexer) (out : StepRes),
    lexHexObj f l = some out → l.start ≤ l.pos → l.pos ≤ l.input.length → stepOK l out := by
  intro f
  induction f with
  | zero => intro l out h h1 h2; exact Option.noConfusion h
  | succ f ih =>
    intro l out h h1 h2
    unfold lexHexObj at h
    dsimp only at h
    split at h
    · refine stepOK_pres l _ out (presLex_next l) (ih _ out h ?_ ?_)
      · rw [next_start]
        exact le_trans h1 (next_pos_ge l)
      · rw [next_input]
        exact next_pos_le l h2
    · split at h
      · cases h
        exact stepOK_emit1 l _ .itemHexString _ (presLex_next l) h1 h2 (by simp)
          (fun s1 hs1 => by cases hs1; trivial)
      · split at h
        · cases h
          exact stepOK_err l _ _ (next_input l) (next_start l)
            (le_trans h1 (next_pos_ge l)) (next_pos_le l h2)
        · cases h
          exact stepOK_err l _ _ (next_input l) (next_start l)
            (le_trans h1 (next_pos_ge l)) (next_pos_le l h2)

theorem lexComment_stepOK (f : Nat) (l : lexer) (out : StepRes)
    (h : lexComment f l = some out) (h1 : l.start ≤ l.pos) (h2 : l.pos ≤ l.input.length) :
    stepOK l out := by
  unfold lexComment at h
  cases hcl : commentLoop f 0 l with
  | none => rw [hcl] at h; exact Option.noConfusion h
  | some rl =>
    rw [hcl] at h
    simp only [Option.map_some'] at h
    obtain ⟨rr, l1⟩ := rl
    obtain ⟨hp, hlt, hb, hbody, hr13⟩ := commentLoop_spec f 0 l rr l1 hcl
    have hrne : (rr == 13) = false := by
      simp only [beq_eq_false_iff_ne, ne_eq]
      exact hr13 (by norm_num)
    simp only [hrne, Bool.false_eq_true, if_false] at h
    cases h
    exact stepOK_emit1 l l1 .itemComment _ hp h1 h2 (by simp)
      (fun s1 hs1 => by cases hs1; trivial)

theorem scanNumber_pres (f : Nat) (l : lexer) (res : Bool × lexer)
    (h : scanNumber f l = some res) : presLex l res.2 := by
  unfold scanNumber at h
  cases ha : acceptRun f numRunes (lexer.accept l [43, 45]).2 with
  | none => rw [ha] at h; exact Option.noConfusion h
  | some l2 =>
    rw [ha] at h
    dsimp only at h
    have hp2 : presLex l l2 :=
      presLex_trans (presLex_accept l [43, 45]) (acceptRun_presLex f _ _ l2 ha)
    by_cases hdot : (lexer.accept l2 [46]).1 = true
    · rw [if_pos hdot] at h
      cases hb : acceptRun f numRunes (lexer.accept l2 [46]).2 with
      | none => rw [hb] at h; exact Option.noConfusion h
      | some l3 =>
        rw [hb] at h
        dsimp only at h
        have hp3 : presLex l l3 :=
          presLex_trans hp2 (presLex_trans (presLex_accept l2 [46])
            (acceptRun_presLex f _ _ l3 hb))
        split at h <;> cases h
        · exact presLex_trans hp3 (presLex_peek l3)
        · exact presLex_trans hp3 (presLex_trans (presLex_peek l3) (presLex_next _))
    · rw [if_neg hdot] at h
      dsimp only at h
      have hp3 : presLex l (lexer.accept l2 [46]).2 :=
        presLex_trans hp2 (presLex_accept l2 [46])
      split at h <;> cases h
      · exact presLex_trans hp3 (presLex_peek _)
      · exact presLex_trans hp3 (presLex_trans (presLex_peek _) (presLex_next _))

theorem lexNumber_stepOK (f : Nat) (l : lexer) (out : StepRes)
    (h : lexNumber f l = some out) (h1 : l.start ≤ l.pos) (h2 : l.pos ≤ l.input.length) :
    stepOK l out := by
  unfold lexNumber at h
  cases hsn : scanNumber f l with
  | none => rw [hsn] at h; exact Option.noConfusion h
  | some res =>
    rw [hsn] at h
    simp only [Option.map_some'] at h
    have hp := scanNumber_pres f l res hsn
    by_cases hok : res.1 = true
    · rw [if_pos hok] at h
      cases h
      exact stepOK_emit1 l res.2 .itemNumber _ hp h1 h2 (by simp)
        (fun s1 hs1 => by cases hs1; trivial)
    · rw [if_neg hok] at h
      cases h
      obtain ⟨pin, pst, -, -, ppos, plen⟩ := hp
      exact stepOK_err l res.2 _ pin pst (by omega) (plen h2)

theorem goIndex_found (pat : List Nat) :
    ∀ (s : List Nat) (j : Int), goIndex pat s = j → 0 ≤ j →
      j.toNat + pat.length ≤ s.length := by
  intro s
  induction s with
  | nil =>
    intro j hj hj0
    unfold goIndex at hj
    split at hj
    · rename_i hp
      subst hp
      simp at hj ⊢
      omega
    · omega
  | cons b t ih =>
    intro j hj hj0
    unfold goIndex at hj
    split at hj
    · rename_i hp
      have hpre : pat <+: b :: t := by
        rwa [← List.isPrefixOf_iff_prefix]
      have := hpre.length_le
      simp at this ⊢
      omega
    · dsimp only at hj
      split at hj
      · omega
      · rename_i hneg
        push_neg at hneg
        have := ih (goIndex pat t) rfl hneg
        simp
        omega

theorem stepOK_emit2 (l : lexer) (p1 p2 : Nat) (t1 t2 : itemType)
    (h1 : l.start ≤ l.pos) (hp1 : l.pos ≤ p1) (hp2 : p1 ≤ p2) (hlen : p2 ≤ l.input.length)
    (ht1 : ¬ t1 = .itemError) (ht2 : ¬ t2 = .itemError) :
    stepOK l
      ([(lexer.emit { l with pos := p1 } t1).1,
        (lexer.emit { (lexer.emit { l with pos := p1 } t1).2 with pos := p2 } t2).1],
       (lexer.emit { (lexer.emit { l with pos := p1 } t1).2 with pos := p2 } t2).2,
       some .SDefault) := by
  have hti1 : tiles l.input l.start [(lexer.emit { l with pos := p1 } t1).1] p1 := by
    have := tiles_emit { l with pos := p1 } t1 (by show l.start ≤ p1; omega)
      (by show p1 ≤ l.input.length; omega) ht1
    simpa using this
  have hti2 : tiles l.input p1
      [(lexer.emit { (lexer.emit { l with pos := p1 } t1).2 with pos := p2 } t2).1] p2 := by
    have := tiles_emit { (lexer.emit { l with pos := p1 } t1).2 with pos := p2 } t2
      (by show p1 ≤ p2; omega) (by show p2 ≤ l.input.length; omega) ht2
    simpa using this
  refine ⟨rfl, ?_, ?_, ?_, ?_, ?_, ?_⟩
  · show l.start ≤ p2
    omega
  · show p2 ≤ p2
    omega
  · show p2 ≤ l.input.length
    omega
  · show tiles l.input l.start _ p2
    exact tiles_append l.input _ _ _ _ _ hti1 (by simpa using hti2)
  · intro s1 hs1
    cases hs1
    trivial
  · exact Or.inr fun ha hd => ⟨ha, hd⟩

theorem lexStream_stepOK (l : lexer) (h1 : l.start ≤ l.pos) (h2 : l.pos ≤ l.input.length) :
    stepOK l (lexStream l) := by
  unfold lexStream
  dsimp only
  split
  · exact stepOK_err l l _ rfl rfl h1 h2
  · rename_i hi
    push_neg at hi
    have hle := goIndex_found rightStreamB (l.input.drop l.pos) _ rfl hi
    have hlen9 : l.pos + (goIndex rightStreamB (l.input.drop l.pos)).toNat +
        rightStreamB.length ≤ l.input.length := by
      simp at hle
      omega
    exact stepOK_emit2 l (l.pos + (goIndex rightStreamB (l.input.drop l.pos)).toNat)
      (l.pos + (goIndex rightStreamB (l.input.drop l.pos)).toNat + rightStreamB.length)
      .itemStreamBody .itemEndStream h1 (by omega) (by omega) hlen9 (by simp) (by simp)

theorem lexLeftDict_stepOK (l : lexer) (h1 : l.start ≤ l.pos) (h2 : l.pos ≤ l.input.length)
    (hs : stateInv .SLeftDict l) : stepOK l (lexLeftDict l) := by
  obtain ⟨hb1, hb2⟩ := hs
  have hlt : l.pos + 1 < l.input.length := lt_length_of_getElem? _ _ _ hb2
  unfold lexLeftDict
  dsimp only
  exact stepOK_emit1 l { l with pos := l.pos + 2 } .itemLeftDict _
    ⟨rfl, rfl, rfl, rfl, by show l.pos ≤ l.pos + 2; omega,
     fun _ => by show l.pos + 2 ≤ l.input.length; omega⟩ h1 h2 (by simp)
    (fun s1 hs1 => by cases hs1; trivial)

theorem lexRightDict_stepOK (l : lexer) (h1 : l.start ≤ l.pos) (h2 : l.pos ≤ l.input.length)
    (hs : stateInv .SRightDict l) : stepOK l (lexRightDict l) := by
  obtain ⟨hb1, hb2⟩ := hs
  have hlt : l.pos + 1 < l.input.length := lt_length_of_getElem? _ _ _ hb2
  unfold lexRightDict
  dsimp only
  exact stepOK_emit1 l { l with pos := l.pos + 2 } .itemRightDict _
    ⟨rfl, rfl, rfl, rfl, by show l.pos ≤ l.pos + 2; omega,
     fun _ => by show l.pos + 2 ≤ l.input.length; omega⟩ h1 h2 (by simp)
    (fun s1 hs1 => by cases hs1; trivial)

theorem stepOK_trans_gen (l L : lexer) (s1 : stateTag)
    (hin : L.input = l.input) (hst : L.start = l.start) (hpos : L.pos = l.pos)
    (h1 : l.start ≤ l.pos) (h2 : l.pos ≤ l.input.length)
    (hs1 : stateInv s1 L)
    (hdep : 0 ≤ l.arrayDepth → 0 ≤ l.dictDepth → 0 ≤ L.arrayDepth ∧ 0 ≤ L.dictDepth) :
    stepOK l ([], L, some s1) := by
  refine ⟨hin, ?_, ?_, ?_, ?_, ?_, Or.inr hdep⟩
  · show l.start ≤ L.start
    omega
  · show L.start ≤ L.pos
    omega
  · show L.pos ≤ l.input.length
    omega
  · show tiles l.input l.start [] L.start
    rw [hst]
    exact rfl
  · intro s2 hs2
    cases hs2
    exact hs1

theorem stepOK_emit_gen (l L : lexer) (t : itemType) (nxt : Option stateTag)
    (hin : L.input = l.input) (hst : L.start = l.start)
    (hpos : l.start ≤ L.pos) (hlen : L.pos ≤ l.input.length)
    (ht : ¬ t = .itemError)
    (hdep : 0 ≤ l.arrayDepth → 0 ≤ l.dictDepth → 0 ≤ L.arrayDepth ∧ 0 ≤ L.dictDepth)
    (hs1 : ∀ s1, nxt = some s1 → stateInv s1 (lexer.emit L t).2) :
    stepOK l ([(lexer.emit L t).1], (lexer.emit L t).2, nxt) := by
  have hti := tiles_emit L t (by omega) (by rw [hin]; exact hlen) ht
  rw [hin, hst] at hti
  refine ⟨?_, ?_, ?_, ?_, ?_, hs1, Or.inr fun ha hd => ?_⟩
  · show L.input = l.input
    exact hin
  · show l.start ≤ L.pos
    exact hpos
  · show L.pos ≤ L.pos
    exact Nat.le_refl _
  · show L.pos ≤ l.input.length
    exact hlen
  · show tiles l.input l.start [(lexer.emit L t).1] L.pos
    exact hti
  · show 0 ≤ L.arrayDepth ∧ 0 ≤ L.dictDepth
    exact hdep ha hd

theorem lexAtEOF_stepOK (l X : lexer) (hp : presLex l X)
    (h1 : l.start ≤ l.pos) (h2 : l.pos ≤ l.input.length) : stepOK l (lexAtEOF X) := by
  obtain ⟨pin, pst, pad, pdd, ppos, plen⟩ := hp
  unfold lexAtEOF
  dsimp only
  split
  · exact stepOK_err l X _ pin pst (by omega) (plen h2)
  · split
    · exact stepOK_err l X _ pin pst (by omega) (plen h2)
    · exact stepOK_emit1 l X .itemEOF none ⟨pin, pst, pad, pdd, ppos, plen⟩ h1 h2
        (by simp) (fun s1 hs1 => nomatch hs1)

theorem lexDefault_stepOK (l : lexer) (h1 : l.start ≤ l.pos) (h2 : l.pos ≤ l.input.length) :
    stepOK l (lexDefault l) := by
  unfold lexDefault
  by_cases c1 : goIsSpace (lexer.next l).1 = true
  · rw [if_pos c1]
    exact stepOK_trans l _ .SSpace (presLex_next l) h1 h2 trivial
  rw [if_neg c1]
  by_cases c2 : ((lexer.next l).1 == 47) = true
  · rw [if_pos c2]
    exact stepOK_trans l _ .SName (presLex_next l) h1 h2 trivial
  rw [if_neg c2]
  by_cases c3 : ((lexer.next l).1 == 43 || (lexer.next l).1 == 45 || (lexer.next l).1 == 46 ||
      (decide (48 ≤ (lexer.next l).1) && decide ((lexer.next l).1 ≤ 57))) = true
  · rw [if_pos c3]
    exact stepOK_trans l _ .SNumber (presLex_next_backup l) h1 h2 trivial
  rw [if_neg c3]
  by_cases c4 : isAlphaNumeric (lexer.next l).1 = true
  · rw [if_pos c4]
    exact stepOK_trans l _ .SWord (presLex_next l) h1 h2 trivial
  rw [if_neg c4]
  by_cases c5 : ((lexer.next l).1 == 40) = true
  · rw [if_pos c5]
    exact stepOK_trans l _ .SStringObj (presLex_next l) h1 h2 trivial
  rw [if_neg c5]
  by_cases c6 : ((lexer.next l).1 == 60) = true
  · rw [if_pos c6]
    rw [beq_iff_eq] at c6
    obtain ⟨hlt1, hdrop1, hnext1⟩ := next_eq_ascii l 60 (by norm_num) (by rw [c6]; rfl)
    have hl1 : (lexer.next l).2 = { l with width := 1, pos := l.pos + 1 } := by rw [hnext1]
    by_cases c6b : ((lexer.peek (lexer.next l).2).1 == 60) = true
    · rw [if_pos c6b]
      rw [peek_fst, beq_iff_eq] at c6b
      obtain ⟨hlt2, hdrop2, hnext2⟩ :=
        next_eq_ascii (lexer.next l).2 60 (by norm_num) (by rw [c6b]; rfl)
      have hpk : (lexer.peek (lexer.next l).2).2 = { (lexer.next l).2 with width := 1 } := by
        rw [peek_snd, hnext2]
      have hL : { lexer.backup (lexer.peek (lexer.next l).2).2 with
                  dictDepth := (lexer.peek (lexer.next l).2).2.dictDepth + 1 } =
                { l with width := 1, dictDepth := l.dictDepth + 1 } := by
        rw [hpk, hl1]
        simp [lexer.backup]
      rw [hL]
      rw [hl1] at hdrop2
      refine stepOK_trans_gen l _ .SLeftDict rfl rfl rfl h1 h2 ⟨?_, ?_⟩ ?_
      · show l.input[l.pos]? = some 60
        exact getElem?_of_drop_cons _ _ _ _ hdrop1
      · show l.input[l.pos + 1]? = some 60
        exact getElem?_of_drop_cons _ _ _ _ hdrop2
      · intro ha hd
        constructor
        · show 0 ≤ l.arrayDepth
          exact ha
        · show 0 ≤ l.dictDepth + 1
          omega
    · rw [if_neg c6b]
      exact stepOK_trans l _ .SHexObj
        (presLex_trans (presLex_next l) (presLex_peek _)) h1 h2 trivial
  rw [if_neg c6]
  by_cases c7 : ((lexer.next l).1 == 91) = true
  · rw [if_pos c7]
    refine stepOK_emit_gen l
      { (lexer.next l).2 with arrayDepth := (lexer.next l).2.arrayDepth + 1 }
      .itemLeftArray (some .SDefault) ?_ ?_ ?_ ?_ (by simp) ?_ ?_
    · show (lexer.next l).2.input = l.input
      exact next_input l
    · show (lexer.next l).2.start = l.start
      exact next_start l
    · show l.start ≤ (lexer.next l).2.pos
      exact le_trans h1 (next_pos_ge l)
    · show (lexer.next l).2.pos ≤ l.input.length
      exact next_pos_le l h2
    · intro ha hd
      constructor
      · show 0 ≤ (lexer.next l).2.arrayDepth + 1
        rw [next_arrayDepth]
        omega
      · show 0 ≤ (lexer.next l).2.dictDepth
        rw [next_dictDepth]
        exact hd
    · intro s1 hs1
      cases hs1
      trivial
  rw [if_neg c7]
  by_cases c8 : ((lexer.next l).1 == 93) = true
  · rw [if_pos c8]
    by_cases c8b : ({ (lexer.next l).2 with
        arrayDepth := (lexer.next l).2.arrayDepth - 1 }).arrayDepth < 0
    · rw [if_pos c8b]
      refine stepOK_err l _ _ ?_ ?_ ?_ ?_
      · show (lexer.next l).2.input = l.input
        exact next_input l
      · show (lexer.next l).2.start = l.start
        exact next_start l
      · show l.start ≤ (lexer.next l).2.pos
        exact le_trans h1 (next_pos_ge l)
      · show (lexer.next l).2.pos ≤ l.input.length
        exact next_pos_le l h2
    · rw [if_neg c8b]
      have c8b' : ¬ ((lexer.next l).2.arrayDepth - 1 < 0) := c8b
      refine stepOK_emit_gen l
        { (lexer.next l).2 with arrayDepth := (lexer.next l).2.arrayDepth - 1 }
        .itemRightArray (some .SDefault) ?_ ?_ ?_ ?_ (by simp) ?_ ?_
      · show (lexer.next l).2.input = l.input
        exact next_input l
      · show (lexer.next l).2.start = l.start
        exact next_start l
      · show l.start ≤ (lexer.next l).2.pos
        exact le_trans h1 (next_pos_ge l)
      · show (lexer.next l).2.pos ≤ l.input.length
        exact next_pos_le l h2
      · intro ha hd
        constructor
        · show 0 ≤ (lexer.next l).2.arrayDepth - 1
          omega
        · show 0 ≤ (lexer.next l).2.dictDepth
          rw [next_dictDepth]
          exact hd
      · intro s1 hs1
        cases hs1
        trivial
  rw [if_neg c8]
  by_cases c9 : ((lexer.next l).1 == 37) = true
  · rw [if_pos c9]
    exact stepOK_trans l _ .SComment (presLex_next l) h1 h2 trivial
  rw [if_neg c9]
  by_cases c10 : ((lexer.next l).1 == 62) = true
  · rw [if_pos c10]
    rw [beq_iff_eq] at c10
    obtain ⟨hlt1, hdrop1, hnext1⟩ := next_eq_ascii l 62 (by norm_num) (by rw [c10]; rfl)
    have hl1 : (lexer.next l).2 = { l with width := 1, pos := l.pos + 1 } := by rw [hnext1]
    by_cases c10b : ((lexer.peek (lexer.next l).2).1 == 62) = true
    · rw [if_pos c10b]
      rw [peek_fst, beq_iff_eq] at c10b
      obtain ⟨hlt2, hdrop2, hnext2⟩ :=
        next_eq_ascii (lexer.next l).2 62 (by norm_num) (by rw [c10b]; rfl)
      by_cases c10c : ({ (lexer.peek (lexer.next l).2).2 with
          dictDepth := (lexer.peek (lexer.next l).2).2.dictDepth - 1 }).dictDepth < 0
      · rw [if_pos c10c, peek_snd]
        refine stepOK_err l _ _ ?_ ?_ ?_ ?_
        · show (lexer.next l).2.input = l.input
          exact next_input l
        · show (lexer.next l).2.start = l.start
          exact next_start l
        · show l.start ≤ (lexer.next l).2.pos
          exact le_trans h1 (next_pos_ge l)
        · show (lexer.next l).2.pos ≤ l.input.length
          exact next_pos_le l h2
      · rw [if_neg c10c]
        have hpk : (lexer.peek (lexer.next l).2).2 = { (lexer.next l).2 with width := 1 } := by
          rw [peek_snd, hnext2]
        have hL : lexer.backup { (lexer.peek (lexer.next l).2).2 with
                    dictDepth := (lexer.peek (lexer.next l).2).2.dictDepth - 1 } =
                  { l with width := 1, dictDepth := l.dictDepth - 1 } := by
          rw [hpk, hl1]
          simp [lexer.backup]
        rw [hL]
        rw [hl1] at hdrop2
        have c10c' : ¬ ((lexer.next l).2.dictDepth - 1 < 0) := by
          intro hc
          apply c10c
          show (lexer.peek (lexer.next l).2).2.dictDepth - 1 < 0
          rw [peek_snd]
          exact hc
        rw [next_dictDepth] at c10c'
        refine stepOK_trans_gen l _ .SRightDict rfl rfl rfl h1 h2 ⟨?_, ?_⟩ ?_
        · show l.input[l.pos]? = some 62
          exact getElem?_of_drop_cons _ _ _ _ hdrop1
        · show l.input[l.pos + 1]? = some 62
          exact getElem?_of_drop_cons _ _ _ _ hdrop2
        · intro ha hd
          constructor
          · show 0 ≤ l.arrayDepth
            exact ha
          · show 0 ≤ l.dictDepth - 1
            omega
    · rw [if_neg c10b]
      exact lexAtEOF_stepOK l _ (presLex_trans (presLex_next l) (presLex_peek _)) h1 h2
  rw [if_neg c10]
  by_cases c11 : ((lexer.next l).1 == -1) = true
  · rw [if_pos c11]
    exact lexAtEOF_stepOK l _ (presLex_next l) h1 h2
  rw [if_neg c11]
  exact stepOK_err l _ _ (next_input l) (next_start l)
    (le_trans h1 (next_pos_ge l)) (next_pos_le l h2)

theorem step_stepOK (f : Nat) (s : stateTag) (l : lexer) (out : StepRes)
    (h : step f s l = some out) (h1 : l.start ≤ l.pos) (h2 : l.pos ≤ l.input.length)
    (hs : stateInv s l) : stepOK l out := by
  cases s with
  | SDefault => cases h; exact lexDefault_stepOK l h1 h2
  | SSpace => exact lexSpace_stepOK f l out h h1 h2
  | SName => exact lexName_stepOK f l out h h1 h2
  | SNumber => exact lexNumber_stepOK f l out h h1 h2
  | SStringObj => exact stringLoop_stepOK f 1 l out h h1 h2
  | SHexObj => exact lexHexObj_stepOK f l out h h1 h2
  | SComment => exact lexComment_stepOK f l out h h1 h2
  | SWord => exact lexWord_stepOK f l out h h1 h2
  | SStream => cases h; exact lexStream_stepOK l h1 h2
  | SLeftDict => cases h; exact lexLeftDict_stepOK l h1 h2 hs
  | SRightDict => cases h; exact lexRightDict_stepOK l h1 h2 hs

theorem runFrom_spec : ∀ (f : Nat) (s : stateTag) (l : lexer),
    l.start ≤ l.pos → l.pos ≤ l.input.length → stateInv s l →
    (runFrom f s l).fin.input = l.input ∧
    l.start ≤ (runFrom f s l).fin.start ∧
    (runFrom f s l).fin.start ≤ (runFrom f s l).fin.pos ∧
    (runFrom f s l).fin.pos ≤ l.input.length ∧
    tiles l.input l.start (runFrom f s l).items (runFrom f s l).fin.start := by
  intro f
  induction f with
  | zero =>
    intro s l h1 h2 hs
    exact ⟨rfl, Nat.le_refl _, h1, h2, rfl⟩
  | succ f ih =>
    intro s l h1 h2 hs
    unfold runFrom
    cases hst : step (f + 1) s l with
    | none =>
      exact ⟨rfl, Nat.le_refl _, h1, h2, rfl⟩
    | some out =>
      obtain ⟨its, l1, nxt⟩ := out
      obtain ⟨hin, hs1, hsp, hpl, hti, hsi, hdep⟩ := step_stepOK (f + 1) s l _ hst h1 h2 hs
      dsimp only at hin hs1 hsp hpl hti
      cases nxt with
      | none => exact ⟨hin, hs1, hsp, hpl, hti⟩
      | some s1 =>
        obtain ⟨rin, rst, rsp, rpl, rti⟩ :=
          ih s1 l1 hsp (by rw [hin]; exact hpl) (hsi s1 rfl)
        dsimp only
        refine ⟨by rw [rin, hin], by omega, rsp, by rw [hin] at rpl; exact rpl, ?_⟩
        refine tiles_append l.input its (runFrom f s1 l1).items l.start l1.start _ hti ?_
        rw [← hin]
        exact rti

/-! Claim theorems. -/

theorem C1_comment_stuck (f : Nat) (l : lexer) (h : l.input.length ≤ l.pos) :
    (runFrom f .SComment l).halted = false := by
  cases f with
  | zero => rfl
  | succ f =>
    unfold runFrom
    have hstep : step (f + 1) .SComment l = none := by
      show lexComment (f + 1) l = none
      unfold lexComment
      rw [commentLoop_none_at_end (f + 1) 0 l h]
      rfl
    rw [hstep]

/-- Claim C1 (code bug evidence): the scan of the input "%" — a comment that
reaches end of input with no line terminator — never terminates: for every
fuel bound the state machine fails to reach its terminal token, because
`lexComment` keeps peeking `eof`, which is not an end-of-line rune, while
`next` no longer advances.  The claim says every scan of a finite input
terminates with exactly one terminal token; the code does not. -/
theorem C1_comment_at_eof_never_halts :
    ∀ fuel : Nat, (lexRun (strBytes "%") fuel).halted = false := by
  intro fuel
  cases fuel with
  | zero => rfl
  | succ f =>
    show (runFrom (f + 1) .SDefault ⟨strBytes "%", 0, 0, 0, 0, 0⟩).halted = false
    unfold runFrom
    have hd : step (f + 1) .SDefault (⟨strBytes "%", 0, 0, 0, 0, 0⟩ : lexer) =
        some ([], ⟨strBytes "%", 1, 0, 1, 0, 0⟩, some .SComment) := by
      show some (lexDefault _) = _
      rw [show lexDefault (⟨strBytes "%", 0, 0, 0, 0, 0⟩ : lexer) =
            ([], ⟨strBytes "%", 1, 0, 1, 0, 0⟩, some .SComment) from by decide]
    rw [hd]
    dsimp only
    simpa using C1_comment_stuck f ⟨strBytes "%", 1, 0, 1, 0, 0⟩ (by decide)

/-- Claim C2, counterexample: on input "#" one byte is consumed (final
position 1), the sole emitted token is the error token, and its value is the
error message "illegal character: U+0023 '#'" — concatenating the raw values
of all emitted tokens therefore does not reproduce the consumed prefix "#". -/
theorem C2_error_value_not_input_slice :
    (lexRun [35] 8).halted = true ∧
    (lexRun [35] 8).fin.pos = 1 ∧
    allBytes (lexRun [35] 8).items ≠ List.take (lexRun [35] 8).fin.pos [35] := by
  decide

/-- Claim C2, amended: concatenating the raw values of all emitted NON-ERROR
tokens, in emission order, reproduces exactly the prefix of the input up to
the final pending-token start (which, in an error-free scan, is the entire
consumed prefix); an error token instead carries the message text. -/
theorem C2_emitted_concat_eq_prefix :
    ∀ (input : List Nat) (fuel : Nat),
      emittedBytes (lexRun input fuel).items =
        input.take (lexRun input fuel).fin.start := by
  intro input fuel
  obtain ⟨-, -, -, -, hti⟩ :=
    runFrom_spec fuel .SDefault ⟨input, 0, 0, 0, 0, 0⟩ (Nat.le_refl 0) (Nat.zero_le _) trivial
  have hconcat := tiles_emitted _ _ _ _ hti
  dsimp only at hconcat
  unfold lexRun
  rw [hconcat]
  unfold sliceB
  simp

/-- Claim C4 (code bug evidence): in the dispatch state, a `>` that is not
followed by a second `>` falls through (Go `fallthrough`) into the
end-of-input case instead of reporting an illegal character: with both depth
counters zero the scan of ">" emits an end-of-input token — whose value even
swallows the consumed `>` byte — and terminates without any error token. -/
theorem C4_stray_gt_falls_through_to_eof :
    (lexRun (strBytes ">") 4).items = [⟨.itemEOF, 0, strBytes ">"⟩] ∧
    (lexRun (strBytes ">") 4).halted = true := by
  decide

/-- Claim C6, counterexample: on input "@" the emitted error token's value is
the error message, which is not byte-identical to the input slice
`source[start:start+len]` at its recorded start offset. -/
theorem C6_error_token_value_not_slice :
    ∃ it ∈ (lexRun [64] 8).items,
      it.val ≠ sliceB [64] it.pos (it.pos + it.val.length) := by
  decide

/-- Claim C6, amended: every emitted token other than an error token
(including the end-of-input token) has a value byte-identical to the input
slice `source[start:start+len]` at its recorded start offset; error tokens
carry the rendered error message instead. -/
theorem C6_emit_value_is_slice :
    ∀ (input : List Nat) (fuel : Nat),
      ∀ it ∈ (lexRun input fuel).items, it.typ ≠ .itemError →
        it.val = sliceB input it.pos (it.pos + it.val.length) := by
  intro input fuel it hmem hne
  obtain ⟨-, -, -, -, hti⟩ :=
    runFrom_spec fuel .SDefault ⟨input, 0, 0, 0, 0, 0⟩ (Nat.le_refl 0) (Nat.zero_le _) trivial
  exact tiles_val _ _ _ _ hti it hmem hne

/-- Witness for C6's amended theorem at a concrete input: the word token of
input "A" is in the output and equals the corresponding input slice. -/
theorem C6_emit_value_is_slice_witness :
    (⟨.itemWord, 0, [65]⟩ : item) ∈ (lexRun [65] 8).items ∧
    (⟨.itemWord, 0, [65]⟩ : item).val =
      sliceB [65] (⟨.itemWord, 0, [65]⟩ : item).pos
        ((⟨.itemWord, 0, [65]⟩ : item).pos + (⟨.itemWord, 0, [65]⟩ : item).val.length) :=
  ⟨by decide, C6_emit_value_is_slice [65] 8 ⟨.itemWord, 0, [65]⟩ (by decide) (by decide)⟩

/-- Claim C8, counterexample: the literal string `(a(b)c)` is 7 bytes, not 8;
the scan yields one string token spanning all 7 bytes (the nested balanced
parens included), so no emitted token spans 8 bytes. -/
theorem C8_string_spans_seven_bytes :
    (lexRun (strBytes "(a(b)c)") 20).items.head? =
      some ⟨.itemString, 0, strBytes "(a(b)c)"⟩ ∧
    (strBytes "(a(b)c)").length = 7 ∧
    (∀ it ∈ (lexRun (strBytes "(a(b)c)") 20).items, it.val.length ≠ 8) := by
  decide

/-- Claim C8, amended: escaped parens do not affect the balance (`(\()`
scans as one 4-byte string token; the escaped `(` does not open a nesting
level), unescaped parens do (`(()` dies as an unterminated string object),
and input `(a(b)c)` yields one string token spanning all 7 bytes including
the nested balanced parens, followed by end-of-input. -/
theorem C8_string_balance :
    (lexRun (strBytes "(a(b)c)") 20).items =
      [⟨.itemString, 0, strBytes "(a(b)c)"⟩, ⟨.itemEOF, 7, []⟩] ∧
    (lexRun (strBytes "(\\()") 20).items =
      [⟨.itemString, 0, strBytes "(\\()"⟩, ⟨.itemEOF, 4, []⟩] ∧
    (lexRun (strBytes "(()") 20).items =
      [⟨.itemError, 0, strBytes "unterminated string object"⟩] := by
  decide

/-- Claim C9: input `stream\nBINARYDATAendstream` yields, in order, the
keyword token "stream", one opaque stream-body token "\nBINARYDATA" (found by
raw substring search for the literal `endstream` marker), the end-stream
token "endstream", and then the end-of-input token. -/
theorem C9_stream_body_tokens :
    (lexRun (strBytes "stream\nBINARYDATAendstream") 60).items =
      [⟨.itemStream, 0, strBytes "stream"⟩,
       ⟨.itemStreamBody, 6, strBytes "\nBINARYDATA"⟩,
       ⟨.itemEndStream, 17, strBytes "endstream"⟩,
       ⟨.itemEOF, 26, []⟩] := by
  decide

theorem next_decode (l : lexer) (h : l.pos < l.input.length) :
    lexer.next l = ((utf8DecodeRune (l.input.drop l.pos)).1,
      { l with width := (utf8DecodeRune (l.input.drop l.pos)).2,
               pos := l.pos + (utf8DecodeRune (l.input.drop l.pos)).2 }) := by
  unfold lexer.next
  rw [if_neg (by omega)]

theorem next_end (l : lexer) (h : l.input.length ≤ l.pos) :
    lexer.next l = (-1, { l with width := 0 }) := by
  unfold lexer.next
  rw [if_pos h]

theorem next_of_byte (l : lexer) (b : Nat) (hb : b < 0x80) (h : l.input[l.pos]? = some b) :
    lexer.next l = (Int.ofNat b, { l with width := 1, pos := l.pos + 1 }) := by
  have hlt := lt_length_of_getElem? _ _ _ h
  have hdrop := drop_cons_of_getElem? _ _ _ h
  rw [next_decode l hlt, hdrop, utf8_ascii b _ hb]

/-- Claim C5: the depth counters stay safe.  Part one: whenever a state
function lets the scan continue (next state is not the terminal `nil`),
nonnegative array/dict depth counters stay nonnegative — so, starting from
zero, they never go negative at any state boundary of a scan.  Part two: a
`]` read in the dispatch state with array depth 0 (a decrement that would
take the counter below zero) makes the whole remaining run emit exactly the
single "unexexpected array terminator" error token and halt: the right-array
token is never emitted and no further tokens follow.  Part three: the same
for `>>` with dict depth 0 and the "unexexpected dict terminator" error. -/
theorem C5_depth_counters_never_negative :
    (∀ (f : Nat) (s : stateTag) (l : lexer) (its : List item) (l1 : lexer) (s1 : stateTag),
       step f s l = some (its, l1, some s1) →
       l.start ≤ l.pos → l.pos ≤ l.input.length → stateInv s l →
       0 ≤ l.arrayDepth → 0 ≤ l.dictDepth →
       0 ≤ l1.arrayDepth ∧ 0 ≤ l1.dictDepth) ∧
    (∀ (f : Nat) (l : lexer),
       l.input[l.pos]? = some 93 → l.arrayDepth = 0 →
       ∃ l1, runFrom (f + 1) .SDefault l =
         ⟨[⟨.itemError, l.start, strBytes "unexexpected array terminator"⟩], l1, true⟩) ∧
    (∀ (f : Nat) (l : lexer),
       l.input[l.pos]? = some 62 → l.input[l.pos + 1]? = some 62 → l.dictDepth = 0 →
       ∃ l1, runFrom (f + 1) .SDefault l =
         ⟨[⟨.itemError, l.start, strBytes "unexexpected dict terminator"⟩], l1, true⟩) := by
  refine ⟨?_, ?_, ?_⟩
  · intro f s l its l1 s1 hstep h1 h2 hs ha hd
    obtain ⟨-, -, -, -, -, -, hdep⟩ := step_stepOK f s l _ hstep h1 h2 hs
    rcases hdep with hnone | hq
    · exact nomatch hnone
    · have := hq ha hd
      dsimp only at this
      exact this
  · intro f l hb ha
    have hnext := next_of_byte l 93 (by norm_num) hb
    have hld : lexDefault l =
        errorf { l with width := 1, pos := l.pos + 1, arrayDepth := l.arrayDepth - 1 }
          (strBytes "unexexpected array terminator") := by
      unfold lexDefault
      rw [hnext]
      dsimp only
      rw [if_neg (by decide), if_neg (by decide), if_neg (by decide), if_neg (by decide),
          if_neg (by decide), if_neg (by decide), if_neg (by decide), if_pos (by decide),
          if_pos (show l.arrayDepth - 1 < 0 by omega)]
    refine ⟨{ l with width := 1, pos := l.pos + 1, arrayDepth := l.arrayDepth - 1 }, ?_⟩
    unfold runFrom
    rw [show step (f + 1) .SDefault l = some (lexDefault l) from rfl, hld]
    rfl
  · intro f l hb1 hb2 hd
    have hnext := next_of_byte l 62 (by norm_num) hb1
    have hnext2 := next_of_byte ({ l with width := 1, pos := l.pos + 1 } : lexer) 62
      (by norm_num) hb2
    have hpf : ((lexer.peek ({ l with width := 1, pos := l.pos + 1 } : lexer)).1 == 62) =
        true := by
      rw [peek_fst, hnext2]
      simp
    have hpk : (lexer.peek ({ l with width := 1, pos := l.pos + 1 } : lexer)).2 =
        ({ l with width := 1, pos := l.pos + 1 } : lexer) := by
      rw [peek_snd, hnext2]
    have hld : lexDefault l =
        errorf { l with width := 1, pos := l.pos + 1, dictDepth := l.dictDepth - 1 }
          (strBytes "unexexpected dict terminator") := by
      unfold lexDefault
      rw [hnext]
      dsimp only
      rw [if_neg (by decide), if_neg (by decide), if_neg (by decide), if_neg (by decide),
          if_neg (by decide), if_neg (by decide), if_neg (by decide), if_neg (by decide),
          if_neg (by decide), if_pos (by decide), if_pos hpf, hpk]
      dsimp only
      rw [if_pos (show l.dictDepth - 1 < 0 by omega)]
    refine ⟨{ l with width := 1, pos := l.pos + 1, dictDepth := l.dictDepth - 1 }, ?_⟩
    unfold runFrom
    rw [show step (f + 1) .SDefault l = some (lexDefault l) from rfl, hld]
    rfl

/-- Witness for claim C5 at concrete inputs: a continuing step from "["
keeps the counters nonnegative, and the one-byte inputs "]" and ">>" with
zero counters produce exactly the corresponding terminator error and halt. -/
theorem C5_depth_counters_witness :
    (step 4 .SDefault ⟨[91], 0, 0, 0, 0, 0⟩ =
       some ([⟨.itemLeftArray, 0, [91]⟩], ⟨[91], 1, 1, 1, 1, 0⟩, some .SDefault) ∧
     (0 : Int) ≤ (⟨[91], 1, 1, 1, 1, 0⟩ : lexer).arrayDepth ∧
     (0 : Int) ≤ (⟨[91], 1, 1, 1, 1, 0⟩ : lexer).dictDepth) ∧
    (([93] : List Nat)[0]? = some 93 ∧
     ∃ l1, runFrom 1 .SDefault ⟨[93], 0, 0, 0, 0, 0⟩ =
       ⟨[⟨.itemError, 0, strBytes "unexexpected array terminator"⟩], l1, true⟩) ∧
    (([62, 62] : List Nat)[0]? = some 62 ∧
     ∃ l1, runFrom 1 .SDefault ⟨[62, 62], 0, 0, 0, 0, 0⟩ =
       ⟨[⟨.itemError, 0, strBytes "unexexpected dict terminator"⟩], l1, true⟩) :=
  ⟨⟨by decide,
    C5_depth_counters_never_negative.1 4 .SDefault ⟨[91], 0, 0, 0, 0, 0⟩
      [⟨.itemLeftArray, 0, [91]⟩] ⟨[91], 1, 1, 1, 1, 0⟩ .SDefault (by decide) (by decide)
      (by decide) trivial (by decide) (by decide)⟩,
   ⟨by decide,
    C5_depth_counters_never_negative.2.1 0 ⟨[93], 0, 0, 0, 0, 0⟩ (by decide) rfl⟩,
   ⟨by decide,
    C5_depth_counters_never_negative.2.2 0 ⟨[62, 62], 0, 0, 0, 0, 0⟩ (by decide) (by decide)
      rfl⟩⟩

theorem sliceB_cons (xs : List Nat) (a b v : Nat) (hv : xs[a]? = some v) (hab : a < b) :
    sliceB xs a b = v :: sliceB xs (a + 1) b := by
  unfold sliceB
  rw [drop_cons_of_getElem? _ _ _ hv]
  obtain ⟨k, hk⟩ : ∃ k, b - a = k + 1 := ⟨b - a - 1, by omega⟩
  rw [hk, List.take_succ_cons]
  have hkb : k = b - (a + 1) := by omega
  rw [hkb]

/-- Claim C3, counterexample: on input "%A\r\n" the comment token is "%A" —
the CR LF terminator is neither consumed as part of the comment nor included
in its value (it is scanned afterwards as a whitespace token), contradicting
the claim that the terminator is consumed and included. -/
theorem C3_terminator_not_included :
    (lexRun (strBytes "%A\r\n") 20).items =
      [⟨.itemComment, 0, strBytes "%A"⟩, ⟨.itemSpace, 2, [13, 10]⟩, ⟨.itemEOF, 4, []⟩] ∧
    (∀ it ∈ (lexRun (strBytes "%A\r\n") 20).items, it.typ = .itemComment →
      it.val ≠ strBytes "%A\r\n" ∧ 13 ∉ it.val ∧ 10 ∉ it.val) := by
  decide

/-- Claim C3, amended: for every emitted comment token, the scan runs from
the `%` up to but NOT including the first line terminator: the token's value
is the `%` and the following bytes none of which is CR or LF, the scan stops
with its position on the first CR or LF byte, and that terminator byte is
left unconsumed (the next token starts on it; the CR-LF special case in the
code is unreachable, since the loop never consumes any end-of-line rune). -/
theorem C3_comment_stops_before_terminator :
    ∀ (f : Nat) (l : lexer) (its : List item) (l1 : lexer) (nxt : Option stateTag),
      step f .SComment l = some (its, l1, nxt) →
      l.input[l.start]? = some 37 → l.pos = l.start + 1 →
      nxt = some .SDefault ∧
      its = [⟨.itemComment, l.start, 37 :: sliceB l.input (l.start + 1) l1.pos⟩] ∧
      l1.start = l1.pos ∧
      (∀ b ∈ sliceB l.input (l.start + 1) l1.pos, b ≠ 13 ∧ b ≠ 10) ∧
      (l.input[l1.pos]? = some 13 ∨ l.input[l1.pos]? = some 10) := by
  intro f l its l1 nxt h h37 hpos
  replace h : lexComment f l = some (its, l1, nxt) := h
  unfold lexComment at h
  cases hcl : commentLoop f 0 l with
  | none => rw [hcl] at h; exact Option.noConfusion h
  | some rl =>
    rw [hcl] at h
    simp only [Option.map_some'] at h
    obtain ⟨rr, lc⟩ := rl
    obtain ⟨⟨pin, pst, -, -, ppos, -⟩, hlt, hbyte, hbody, hr13⟩ :=
      commentLoop_spec f 0 l rr lc hcl
    have hrne : (rr == 13) = false := by
      simp only [beq_eq_false_iff_ne, ne_eq]
      exact hr13 (by norm_num)
    simp only [hrne, Bool.false_eq_true, if_false] at h
    cases h
    have hlc : l.start < lc.pos := by omega
    refine ⟨rfl, ?_, rfl, ?_, ?_⟩
    · show [(lexer.emit lc .itemComment).1] = _
      rw [emit_fst, pin, pst]
      rw [sliceB_cons l.input l.start lc.pos 37 h37 hlc]
      rfl
    · intro b hb
      refine hbody b ?_
      rw [hpos]
      exact hb
    · exact hbyte

/-- Witness for C3's amended theorem on the concrete comment "%B\n": the
comment token is "%B", the stop position carries the LF byte, and the body
"B" contains no terminator byte. -/
theorem C3_comment_stops_before_terminator_witness :
    (strBytes "%B\n")[0]? = some 37 ∧
    (some stateTag.SDefault = some stateTag.SDefault ∧
     [(⟨.itemComment, 0, [37, 66]⟩ : item)] =
       [⟨.itemComment, 0, 37 :: sliceB (strBytes "%B\n") 1 2⟩] ∧
     (2 : Nat) = 2 ∧
     (∀ b ∈ sliceB (strBytes "%B\n") 1 2, b ≠ 13 ∧ b ≠ 10) ∧
     ((strBytes "%B\n")[2]? = some 13 ∨ (strBytes "%B\n")[2]? = some 10)) :=
  ⟨by decide,
   C3_comment_stops_before_terminator 10 ⟨strBytes "%B\n", 1, 0, 1, 0, 0⟩
     [⟨.itemComment, 0, [37, 66]⟩] ⟨strBytes "%B\n", 2, 2, 1, 0, 0⟩ (some .SDefault)
     (by decide) (by decide) (by decide)⟩

theorem next_fst_eq (l : lexer) : (lexer.next l).1 =
    if l.input.length ≤ l.pos then (-1 : Int)
    else (utf8DecodeRune (l.input.drop l.pos)).1 := by
  unfold lexer.next
  by_cases h : l.input.length ≤ l.pos <;> simp [h]

theorem next_fst_congr {l l' : lexer} (hin : l'.input = l.input) (hpos : l'.pos = l.pos) :
    (lexer.next l').1 = (lexer.next l).1 := by
  rw [next_fst_eq, next_fst_eq, hin, hpos]

theorem next_backup_eq (l : lexer) :
    lexer.backup (lexer.next l).2 = { l with width := (lexer.next l).2.width } := by
  unfold lexer.next lexer.backup
  by_cases h : l.input.length ≤ l.pos <;> simp [h]

/-- Claim C7: number scanning checks the following byte.  The two examples of
the claim are computed exactly, and in general one invocation of the number
state either (a) emits one number token spanning the scanned text and hands
control back to dispatch, with the rune at the stop position being a
delimiter, whitespace or end of input, or (b) — when that boundary check
fails — terminates with one malformed-number error token whose message quotes
the scanned text plus the offending rune (the span up to the final position,
which includes the consumed offending rune). -/
theorem C7_number_boundary_check :
    ((lexRun (strBytes "-12.5 ") 20).items =
       [⟨.itemNumber, 0, strBytes "-12.5"⟩, ⟨.itemSpace, 5, [32]⟩, ⟨.itemEOF, 6, []⟩]) ∧
    ((lexRun (strBytes "12.5x") 20).items =
       [⟨.itemError, 0, strBytes "bad number syntax: " ++ goQuote (strBytes "12.5x")⟩]) ∧
    (∀ (f : Nat) (l : lexer) (its : List item) (l1 : lexer) (nxt : Option stateTag),
       step f .SNumber l = some (its, l1, nxt) →
       (its = [⟨.itemNumber, l.start, sliceB l.input l.start l1.pos⟩] ∧
          nxt = some .SDefault ∧
          (isDelim (lexer.peek l1).1 || goIsSpace (lexer.peek l1).1 ||
            ((lexer.peek l1).1 == -1)) = true) ∨
       (its = [⟨.itemError, l.start,
                 strBytes "bad number syntax: " ++
                   goQuote (sliceB l.input l.start l1.pos)⟩] ∧
          nxt = none ∧
          ¬ (isDelim (lexer.peek (lexer.backup l1)).1 ||
             goIsSpace (lexer.peek (lexer.backup l1)).1 ||
             ((lexer.peek (lexer.backup l1)).1 == -1)) = true)) := by
  refine ⟨by decide, by decide, ?_⟩
  intro f l its l1 nxt h
  replace h : lexNumber f l = some (its, l1, nxt) := h
  unfold lexNumber at h
  cases hsn : scanNumber f l with
  | none => rw [hsn] at h; exact Option.noConfusion h
  | some res =>
    rw [hsn] at h
    simp only [Option.map_some'] at h
    obtain ⟨pin, pst, -, -, -, -⟩ := scanNumber_pres f l res hsn
    unfold scanNumber at hsn
    cases ha : acceptRun f numRunes (lexer.accept l [43, 45]).2 with
    | none => rw [ha] at hsn; exact Option.noConfusion hsn
    | some l2 =>
      rw [ha] at hsn
      dsimp only at hsn
      cases hb : (if (lexer.accept l2 [46]).1 = true then
          acceptRun f numRunes (lexer.accept l2 [46]).2
        else some (lexer.accept l2 [46]).2) with
      | none => rw [hb] at hsn; exact Option.noConfusion hsn
      | some l3 =>
        rw [hb] at hsn
        dsimp only at hsn
        split at hsn
        · -- boundary holds: success
          rename_i hcond
          cases hsn
          dsimp only at h pin pst
          rw [if_pos rfl] at h
          cases h
          left
          have hq2in : (lexer.peek l3).2.input = l3.input := by rw [peek_snd]
          have hq2pos : (lexer.peek l3).2.pos = l3.pos := by rw [peek_snd]
          refine ⟨?_, rfl, ?_⟩
          · show [(lexer.emit (lexer.peek l3).2 .itemNumber).1] = _
            rw [emit_fst, pin, pst]
            rfl
          · have hfst : (lexer.peek (lexer.emit (lexer.peek l3).2 .itemNumber).2).1 =
                (lexer.peek l3).1 := by
              rw [peek_fst, peek_fst]
              refine next_fst_congr ?_ ?_
              · rw [emit_snd]
                exact hq2in
              · rw [emit_snd]
                exact hq2pos
            rw [hfst]
            simpa using hcond
        · -- boundary fails: malformed-number error
          rename_i hcond
          cases hsn
          dsimp only at h pin pst
          rw [if_neg (by simp)] at h
          cases h
          right
          refine ⟨?_, rfl, ?_⟩
          · show [(⟨.itemError, (lexer.next (lexer.peek l3).2).2.start,
                strBytes "bad number syntax: " ++
                  goQuote (sliceB (lexer.next (lexer.peek l3).2).2.input
                    (lexer.next (lexer.peek l3).2).2.start
                    (lexer.next (lexer.peek l3).2).2.pos)⟩ : item)] = _
            rw [pin, pst]
          · have hfst : (lexer.peek (lexer.backup (lexer.next (lexer.peek l3).2).2)).1 =
                (lexer.peek l3).1 := by
              rw [peek_fst, peek_fst]
              refine next_fst_congr ?_ ?_
              · show (lexer.next (lexer.peek l3).2).2.input = l3.input
                rw [next_input, peek_snd]
              · rw [next_backup_eq (lexer.peek l3).2]
                show (lexer.peek l3).2.pos = l3.pos
                rw [peek_snd]
            rw [hfst]
            exact hcond

/-- Witness for claim C7's general part: on the concrete number "7" followed
by the delimiter "]", the number state emits the one-byte number token and
the boundary check succeeds. -/
theorem C7_number_boundary_check_witness :
    step 20 .SNumber ⟨strBytes "7]", 0, 0, 0, 0, 0⟩ =
      some ([⟨.itemNumber, 0, [55]⟩], ⟨strBytes "7]", 1, 1, 1, 0, 0⟩, some .SDefault) ∧
    (([(⟨.itemNumber, 0, [55]⟩ : item)] =
        [⟨.itemNumber, 0, sliceB (strBytes "7]") 0 1⟩] ∧
      (some stateTag.SDefault = some stateTag.SDefault) ∧
      (isDelim (lexer.peek (⟨strBytes "7]", 1, 1, 1, 0, 0⟩ : lexer)).1 ||
       goIsSpace (lexer.peek (⟨strBytes "7]", 1, 1, 1, 0, 0⟩ : lexer)).1 ||
       ((lexer.peek (⟨strBytes "7]", 1, 1, 1, 0, 0⟩ : lexer)).1 == -1)) = true) ∨
     ([(⟨.itemNumber, 0, [55]⟩ : item)] =
        [⟨.itemError, 0, strBytes "bad number syntax: " ++
            goQuote (sliceB (strBytes "7]") 0 1)⟩] ∧
      (some stateTag.SDefault = (none : Option stateTag)) ∧
      ¬ (isDelim (lexer.peek (lexer.backup (⟨strBytes "7]", 1, 1, 1, 0, 0⟩ : lexer))).1 ||
         goIsSpace (lexer.peek (lexer.backup (⟨strBytes "7]", 1, 1, 1, 0, 0⟩ : lexer))).1 ||
         ((lexer.peek (lexer.backup (⟨strBytes "7]", 1, 1, 1, 0, 0⟩ : lexer))).1 == -1)) =
           true)) :=
  ⟨by decide,
   C7_number_boundary_check.2.2 20 ⟨strBytes "7]", 0, 0, 0, 0, 0⟩
     [⟨.itemNumber, 0, [55]⟩] ⟨strBytes "7]", 1, 1, 1, 0, 0⟩ (some .SDefault) (by decide)⟩

/-- The rune the scanner decodes at the head of a byte sequence: `-1` (eof)
when the sequence is empty, otherwise the first UTF-8 rune. -/
def firstRune (bs : List Nat) : Int :=
  if bs.isEmpty then -1 else (utf8DecodeRune bs).1

theorem next_fst_at_one (X : lexer) (c : Nat) (rest : List Nat)
    (hin : X.input = c :: rest) (hpos : X.pos = 1) :
    (lexer.next X).1 = firstRune rest := by
  rw [next_fst_eq, hin, hpos]
  cases rest with
  | nil => simp [firstRune]
  | cons a t => simp [firstRune]

theorem boundary_excludes (r : Int)
    (h : (isDelim r || goIsSpace r || (r == -1)) = true) :
    numRunes.contains r = false ∧ (([43, 45] : List Int).contains r) = false ∧
    (([46] : List Int).contains r) = false := by
  have hnum : numRunes = [48, 49, 50, 51, 52, 53, 54, 55, 56, 57] := by decide
  rw [hnum]
  simp only [isDelim, goIsSpace] at h
  simp only [Bool.or_eq_true, beq_iff_eq, decide_eq_true_eq, List.contains_eq_any_beq,
    List.any_cons, List.any_nil, Bool.or_eq_true, Bool.false_eq_true, or_false] at h
  simp only [List.contains_eq_any_beq, List.any_cons, List.any_nil, Bool.or_eq_false_iff,
    beq_eq_false_iff_ne, ne_eq, and_true]
  omega

theorem next_width_congr (l l2 : lexer) (hin : l2.input = l.input)
    (hpos : l2.pos = l.pos) : (lexer.next l2).2.width = (lexer.next l).2.width := by
  unfold lexer.next
  rw [hin, hpos]
  by_cases h : l.input.length ≤ l.pos <;> simp [h]

theorem scanNumber_single (f : Nat) (c : Nat) (rest : List Nat)
    (hc : c = 43 ∨ c = 45 ∨ c = 46)
    (hb : (isDelim (firstRune rest) || goIsSpace (firstRune rest) ||
           (firstRune rest == -1)) = true) :
    scanNumber (f + 1) ⟨c :: rest, 0, 0, 1, 0, 0⟩ =
      some (true, ⟨c :: rest, 1, 0,
        (lexer.next (⟨c :: rest, 1, 0, 1, 0, 0⟩ : lexer)).2.width, 0, 0⟩) := by
  obtain ⟨hdig, hsgn, hdot⟩ := boundary_excludes _ hb
  have hc0 : c < 0x80 := by rcases hc with h | h | h <;> omega
  have ha2 : acceptRun (f + 1) numRunes ⟨c :: rest, 1, 0, 1, 0, 0⟩ =
      some ⟨c :: rest, 1, 0,
        (lexer.next (⟨c :: rest, 1, 0, 1, 0, 0⟩ : lexer)).2.width, 0, 0⟩ := by
    unfold acceptRun
    rw [next_fst_at_one ⟨c :: rest, 1, 0, 1, 0, 0⟩ c rest rfl rfl, hdig,
      if_neg (by decide), next_backup_eq ⟨c :: rest, 1, 0, 1, 0, 0⟩]
  have hl2 : lexer.accept
      ⟨c :: rest, 1, 0, (lexer.next (⟨c :: rest, 1, 0, 1, 0, 0⟩ : lexer)).2.width, 0, 0⟩ [46] =
      (false, ⟨c :: rest, 1, 0,
        (lexer.next (⟨c :: rest, 1, 0, 1, 0, 0⟩ : lexer)).2.width, 0, 0⟩) := by
    unfold lexer.accept
    rw [next_fst_at_one
      ⟨c :: rest, 1, 0, (lexer.next (⟨c :: rest, 1, 0, 1, 0, 0⟩ : lexer)).2.width, 0, 0⟩
      c rest rfl rfl, hdot, if_neg (by decide),
      next_backup_eq
        ⟨c :: rest, 1, 0, (lexer.next (⟨c :: rest, 1, 0, 1, 0, 0⟩ : lexer)).2.width, 0, 0⟩,
      next_width_congr ⟨c :: rest, 1, 0, 1, 0, 0⟩
        ⟨c :: rest, 1, 0, (lexer.next (⟨c :: rest, 1, 0, 1, 0, 0⟩ : lexer)).2.width, 0, 0⟩
        rfl rfl]
  rcases hc with h | h | h
  case inl | inr.inl =>
    have hacc1 : lexer.accept ⟨c :: rest, 0, 0, 1, 0, 0⟩ [43, 45] =
        (true, ⟨c :: rest, 1, 0, 1, 0, 0⟩) := by
      unfold lexer.accept
      rw [next_of_byte ⟨c :: rest, 0, 0, 1, 0, 0⟩ c hc0 (by simp)]
      dsimp only
      rw [if_pos (show (([43, 45] : List Int).contains (Int.ofNat c)) = true by
        subst h; decide)]
    unfold scanNumber
    rw [hacc1]
    dsimp only
    rw [ha2]
    dsimp only
    rw [hl2]
    dsimp only
    rw [if_neg (by decide)]
    dsimp only
    rw [peek_fst, next_fst_at_one
      ⟨c :: rest, 1, 0, (lexer.next (⟨c :: rest, 1, 0, 1, 0, 0⟩ : lexer)).2.width, 0, 0⟩
      c rest rfl rfl, if_pos hb,
      peek_snd, next_width_congr ⟨c :: rest, 1, 0, 1, 0, 0⟩
        ⟨c :: rest, 1, 0, (lexer.next (⟨c :: rest, 1, 0, 1, 0, 0⟩ : lexer)).2.width, 0, 0⟩
        rfl rfl]
  case inr.inr =>
    subst h
    have hacc0 : lexer.accept ⟨46 :: rest, 0, 0, 1, 0, 0⟩ [43, 45] =
        (false, ⟨46 :: rest, 0, 0, 1, 0, 0⟩) := by
      unfold lexer.accept
      rw [next_of_byte ⟨46 :: rest, 0, 0, 1, 0, 0⟩ 46 (by decide) (by simp)]
      dsimp only
      rw [if_neg (by decide)]
      rfl
    have ha1 : acceptRun (f + 1) numRunes ⟨46 :: rest, 0, 0, 1, 0, 0⟩ =
        some ⟨46 :: rest, 0, 0, 1, 0, 0⟩ := by
      unfold acceptRun
      rw [next_of_byte ⟨46 :: rest, 0, 0, 1, 0, 0⟩ 46 (by decide) (by simp)]
      dsimp only
      rw [if_neg (by decide)]
      rfl
    have haccdot : lexer.accept ⟨46 :: rest, 0, 0, 1, 0, 0⟩ [46] =
        (true, ⟨46 :: rest, 1, 0, 1, 0, 0⟩) := by
      unfold lexer.accept
      rw [next_of_byte ⟨46 :: rest, 0, 0, 1, 0, 0⟩ 46 (by decide) (by simp)]
      dsimp only
      rw [if_pos (by decide)]
    unfold scanNumber
    rw [hacc0]
    dsimp only
    rw [ha1]
    dsimp only
    rw [haccdot]
    dsimp only
    rw [if_pos rfl]
    rw [ha2]
    dsimp only
    rw [peek_fst, next_fst_at_one
      ⟨46 :: rest, 1, 0, (lexer.next (⟨46 :: rest, 1, 0, 1, 0, 0⟩ : lexer)).2.width, 0, 0⟩
      46 rest rfl rfl, if_pos hb,
      peek_snd, next_width_congr ⟨46 :: rest, 1, 0, 1, 0, 0⟩
        ⟨46 :: rest, 1, 0, (lexer.next (⟨46 :: rest, 1, 0, 1, 0, 0⟩ : lexer)).2.width, 0, 0⟩
        rfl rfl]

theorem lexDefault_sign (c : Nat) (rest : List Nat)
    (hc : c = 43 ∨ c = 45 ∨ c = 46) :
    lexDefault ⟨c :: rest, 0, 0, 0, 0, 0⟩ =
      ([], ⟨c :: rest, 0, 0, 1, 0, 0⟩, some .SNumber) := by
  have hc0 : c < 0x80 := by rcases hc with h | h | h <;> omega
  have h1 : goIsSpace (Int.ofNat c) = false := by
    rcases hc with h | h | h <;> subst h <;> decide
  have h2 : (Int.ofNat c == 47) = false := by
    rcases hc with h | h | h <;> subst h <;> decide
  have h3 : (Int.ofNat c == 43 || Int.ofNat c == 45 || Int.ofNat c == 46 ||
      (decide (48 ≤ Int.ofNat c) && decide (Int.ofNat c ≤ 57))) = true := by
    rcases hc with h | h | h <;> subst h <;> decide
  unfold lexDefault
  rw [next_of_byte ⟨c :: rest, 0, 0, 0, 0, 0⟩ c hc0 (by simp)]
  dsimp only
  rw [h1, if_neg (by decide), h2, if_neg (by decide), h3, if_pos rfl]
  rfl

theorem lexNumber_sign (f : Nat) (c : Nat) (rest : List Nat)
    (hc : c = 43 ∨ c = 45 ∨ c = 46)
    (hb : (isDelim (firstRune rest) || goIsSpace (firstRune rest) ||
           (firstRune rest == -1)) = true) :
    lexNumber (f + 1) ⟨c :: rest, 0, 0, 1, 0, 0⟩ =
      some ([⟨.itemNumber, 0, [c]⟩],
        ⟨c :: rest, 1, 1, (lexer.next (⟨c :: rest, 1, 0, 1, 0, 0⟩ : lexer)).2.width, 0, 0⟩,
        some .SDefault) := by
  unfold lexNumber
  rw [scanNumber_single f c rest hc hb]
  simp only [Option.map_some', if_true]
  rfl

/-- Claim C10: an input whose first byte is a lone sign (`+`/`-`) or decimal
point (`.`) with no digits, followed by a delimiter, whitespace or the end of
the input, is scanned as a number token containing no digits (its value is
just that one byte), not as an error token.  The first three conjuncts
compute the claim's examples "+", "-", "." exactly; the last settles every
such input at once. -/
theorem C10_sign_or_point_alone_is_number :
    ((lexRun (strBytes "+") 5).items = [⟨.itemNumber, 0, [43]⟩, ⟨.itemEOF, 1, []⟩]) ∧
    ((lexRun (strBytes "-") 5).items = [⟨.itemNumber, 0, [45]⟩, ⟨.itemEOF, 1, []⟩]) ∧
    ((lexRun (strBytes ".") 5).items = [⟨.itemNumber, 0, [46]⟩, ⟨.itemEOF, 1, []⟩]) ∧
    (∀ (f : Nat) (c : Nat) (rest : List Nat),
       (c = 43 ∨ c = 45 ∨ c = 46) →
       (isDelim (firstRune rest) || goIsSpace (firstRune rest) ||
         (firstRune rest == -1)) = true →
       (lexRun (c :: rest) (f + 2)).items.head? = some ⟨.itemNumber, 0, [c]⟩) := by
  refine ⟨by decide, by decide, by decide, ?_⟩
  intro f c rest hc hb
  have hstep1 : step (f + 1 + 1) .SDefault ⟨c :: rest, 0, 0, 0, 0, 0⟩ =
      some ([], ⟨c :: rest, 0, 0, 1, 0, 0⟩, some .SNumber) := by
    show some (lexDefault ⟨c :: rest, 0, 0, 0, 0, 0⟩) = _
    rw [lexDefault_sign c rest hc]
  have hstep2 : step (f + 1) .SNumber ⟨c :: rest, 0, 0, 1, 0, 0⟩ =
      some ([⟨.itemNumber, 0, [c]⟩],
        ⟨c :: rest, 1, 1, (lexer.next (⟨c :: rest, 1, 0, 1, 0, 0⟩ : lexer)).2.width, 0, 0⟩,
        some .SDefault) := by
    show lexNumber (f + 1) ⟨c :: rest, 0, 0, 1, 0, 0⟩ = _
    exact lexNumber_sign f c rest hc hb
  show (runFrom (f + 1 + 1) .SDefault ⟨c :: rest, 0, 0, 0, 0, 0⟩).items.head? =
    some ⟨.itemNumber, 0, [c]⟩
  unfold runFrom
  rw [hstep1]
  dsimp only
  unfold runFrom
  rw [hstep2]
  rfl

/-- Witness for claim C10's general part: at the concrete input ".]" (a lone
decimal point followed by the delimiter "]"), the hypotheses hold and the
first emitted token is the digitless number token ".". -/
theorem C10_sign_or_point_alone_is_number_witness :
    ((46 = 43 ∨ 46 = 45 ∨ 46 = 46) ∧
     (isDelim (firstRune (strBytes "]")) || goIsSpace (firstRune (strBytes "]")) ||
       (firstRune (strBytes "]") == -1)) = true) ∧
    (lexRun (46 :: strBytes "]") (3 + 2)).items.head? = some ⟨.itemNumber, 0, [46]⟩ :=
  ⟨⟨by decide, by decide⟩,
   C10_sign_or_point_alone_is_number.2.2.2 3 46 (strBytes "]") (by decide) (by decide)⟩
